import Mathlib

/-!
# A small-buffer-optimised string: shallow embedding of `String.cpp`

The C++ class `String` keeps up to `short_max = 15` code units in an array
`ch` embedded in the object and longer contents in a free-store array.  The
embedding below follows the source function by function.

Modelling conventions.

* A `char` array is a list of cells; a cell that was never written is
  indeterminate (`none`).
* The program state (`World`) holds the `String` objects, indexed by address,
  and the free store.  A member function takes the state and the address of
  `*this`; a reference argument is an address too, so that `this == &x` is a
  comparison of addresses.
* A `char*` is either the array `ch` of the object at some address or an
  array of the free store (`Ptr`).
* The free store is a table of arrays indexed by allocation number, together
  with the number of code units that can still be allocated.  `new char[n]`
  throws `bad_alloc` when `n` exceeds what is left.
* The anonymous union `{ int space; char ch[16]; }` holds the member written
  last; seen through the other member its content is indeterminate.
* The type `int` is a 32-bit signed integer.  Signed overflow, an access
  outside an array, a read of an indeterminate cell, `memcpy` of an object
  onto itself and `delete[]` of something that is not a live allocation are
  undefined behaviour; the embedding stops there and reports `Outcome.fault`
  with the state reached.
* A thrown C++ exception is reported as `Outcome.thrown` with the state at the
  throw.
* A constructor runs on storage whose previous content is arbitrary and is a
  parameter (`raw`).
-/

namespace StrImpl

/-- One `char` of storage; `none` stands for an indeterminate value. -/
abbrev Cell := Option Int

/-- The exceptions the program can raise. -/
inductive Exn where
  | out_of_range
  | bad_alloc
  deriving DecidableEq

/-- Result of running a piece of the program from a state of type `σ`. -/
inductive Outcome (σ : Type) (α : Type) where
  | ok (a : α) (s : σ)
  | thrown (e : Exn) (s : σ)
  | fault (s : σ)
  deriving DecidableEq

/-- The state in which a run ended, however it ended. -/
def Outcome.state {σ α : Type} : Outcome σ α → σ
  | .ok _ s => s
  | .thrown _ s => s
  | .fault s => s

/-- The state after a normal return. -/
def Outcome.done {σ α : Type} : Outcome σ α → Option σ
  | .ok _ s => some s
  | .thrown _ _ => none
  | .fault _ => none

/-- Largest value of `int`. -/
def INT_MAX : Int := 2147483647

/-- Smallest value of `int`. -/
def INT_MIN : Int := -2147483648

/-- Whether a mathematical integer is representable as an `int`. -/
def inInt (v : Int) : Bool := decide (INT_MIN ≤ v) && decide (v ≤ INT_MAX)

/-- The conversion `static_cast<int>` of a `size_t` (two's complement wrap-around). -/
def toInt32 (n : Nat) : Int := ((n : Int) + 2147483648) % 4294967296 - 2147483648

/-- The constant `String::short_max`. -/
def short_max : Int := 15

/-- The free store. -/
structure Heap where
  bufs : List (Option (List Cell))
  avail : Nat
  deriving DecidableEq

/-- The expression `new char[n]`: `none` when the allocation throws. -/
def Heap.new_array (h : Heap) (n : Int) : Option (Nat × Heap) :=
  if n < 0 ∨ (h.avail : Int) < n then none
  else some (h.bufs.length,
    { bufs := h.bufs ++ [some (List.replicate n.toNat none)], avail := h.avail - n.toNat })

/-- The array of a live allocation. -/
def Heap.lookup (h : Heap) (id : Nat) : Option (List Cell) :=
  match h.bufs[id]? with
  | some (some cells) => some cells
  | _ => none

/-- The statement `delete[] p` for `p` the allocation `id`: `none` when `id` is not live. -/
def Heap.delete_array (h : Heap) (id : Nat) : Option Heap :=
  match h.lookup id with
  | some cells => some { bufs := h.bufs.set id none, avail := h.avail + cells.length }
  | none => none

/-- The read of `a[n]`: `none` when out of bounds or indeterminate. -/
def readAt (cells : List Cell) (n : Int) : Option Int :=
  if 0 ≤ n then
    match cells[n.toNat]? with
    | some (some c) => some c
    | _ => none
  else none

/-- The store `a[n] = c`: `none` when out of bounds. -/
def writeAt (cells : List Cell) (n : Int) (c : Int) : Option (List Cell) :=
  if 0 ≤ n ∧ n < (cells.length : Int) then some (cells.set n.toNat (some c)) else none

/-- The code units of the zero-terminated sequence starting at the first cell:
`none` when the array ends or an indeterminate cell is met before a zero. -/
def cstr : List Cell → Option (List Int)
  | [] => none
  | none :: _ => none
  | some c :: rest => if c = 0 then some [] else (cstr rest).map (fun l => c :: l)

/-- The call `strcpy(dst, src)` for `src` holding the code units `chars` followed by a
zero: `none` when `dst` is too short. -/
def strcpy (dst : List Cell) (chars : List Int) : Option (List Cell) :=
  if chars.length + 1 ≤ dst.length then
    some ((chars ++ [0]).map some ++ dst.drop (chars.length + 1))
  else none

/-- The value of the member `ptr`: the array `ch` embedded in the `String`
object at address `obj`, or an array in the free store. -/
inductive Ptr where
  | inl (obj : Nat)
  | heap (id : Nat)
  deriving DecidableEq

/-- The anonymous union of `space` and `ch`. -/
inductive Store where
  | space (k : Int)
  | ch (cells : List Cell)
  deriving DecidableEq

/-- The union seen through `ch`: an array of sixteen cells. -/
def Store.cells : Store → List Cell
  | .ch cells => (cells ++ List.replicate 16 none).take 16
  | .space _ => List.replicate 16 none

/-- The union seen through `space`. -/
def Store.getSpace : Store → Option Int
  | .space k => some k
  | .ch _ => none

/-- The representation of a `String` object. -/
structure String where
  ptr : Ptr
  sz : Int
  u : Store
  deriving DecidableEq

/-- The program state: the `String` objects by address, and the free store. -/
structure World where
  objs : List String
  heap : Heap
  deriving DecidableEq

/-- The object at address `a`. -/
def World.obj (w : World) (a : Nat) : Option String := w.objs[a]?

/-- Overwrite the object at address `a`. -/
def World.setObj (w : World) (a : Nat) (s : String) : World :=
  { w with objs := w.objs.set a s }

/-- The array a pointer refers to. -/
def World.view (w : World) (p : Ptr) : Option (List Cell) :=
  match p with
  | .inl o =>
    match w.obj o with
    | some s => some s.u.cells
    | none => none
  | .heap id => w.heap.lookup id

/-- Replace the array a pointer refers to. -/
def World.setView (w : World) (p : Ptr) (cells : List Cell) : World :=
  match p with
  | .inl o =>
    match w.obj o with
    | some s => w.setObj o { s with u := .ch cells }
    | none => w
  | .heap id => { w with heap := { w.heap with bufs := w.heap.bufs.set id (some cells) } }

/-- The read of `p[n]` through a pointer. -/
def World.peek (w : World) (p : Ptr) (n : Int) : Option Int :=
  match w.view p with
  | some cells => readAt cells n
  | none => none

/-- The store `p[n] = c` through a pointer. -/
def World.poke (w : World) (p : Ptr) (n : Int) (c : Int) : Option World :=
  match w.view p with
  | some cells =>
    match writeAt cells n c with
    | some cells1 => some (w.setView p cells1)
    | none => none
  | none => none

/-- The call `strcpy(dst, src)` through a pointer, for `src` holding `chars` followed by a zero. -/
def World.strcpy (w : World) (dst : Ptr) (chars : List Int) : Option World :=
  match w.view dst with
  | some cells =>
    match StrImpl.strcpy cells chars with
    | some cells1 => some (w.setView dst cells1)
    | none => none
  | none => none

/-- The function `expand(ptr, n)`; the value returned is the new allocation. -/
def expand (w : World) (ptr : Ptr) (n : Int) : Outcome World Nat :=
  match w.heap.new_array n with
  | none => .thrown .bad_alloc w
  | some (p, h1) =>
    let w1 : World := { w with heap := h1 }
    match w1.view ptr with
    | none => .fault w1
    | some cells =>
      match cstr cells with
      | none => .fault w1
      | some chars =>
        match w1.strcpy (.heap p) chars with
        | none => .fault w1
        | some w2 => .ok p w2

/-- The member `String::check` -/
def String.check (w : World) (this : Nat) (n : Int) : Outcome World Unit :=
  match w.obj this with
  | none => .fault w
  | some s => if n < 0 ∨ s.sz ≤ n then .thrown .out_of_range w else .ok () w

/-- The member `String::operator[]` -/
def String.index (w : World) (this : Nat) (n : Int) : Outcome World Int :=
  match w.obj this with
  | none => .fault w
  | some s =>
    match w.peek s.ptr n with
    | some c => .ok c w
    | none => .fault w

/-- The member `String::at` -/
def String.at_ (w : World) (this : Nat) (n : Int) : Outcome World Int :=
  match String.check w this n with
  | .ok _ w1 => String.index w1 this n
  | .thrown e w1 => .thrown e w1
  | .fault w1 => .fault w1

/-- The member `String::size` -/
def String.size (w : World) (this : Nat) : Option Int :=
  match w.obj this with
  | some s => some s.sz
  | none => none

/-- The member `String::capacity`: `none` when the evaluation is undefined. -/
def String.capacity (w : World) (this : Nat) : Option Int :=
  match w.obj this with
  | none => none
  | some s =>
    if s.sz ≤ short_max then some short_max
    else
      match s.u.getSpace with
      | some k => if inInt (s.sz + k) then some (s.sz + k) else none
      | none => none

/-- The member `String::c_str`: the pointer returned. -/
def String.c_str (w : World) (this : Nat) : Option Ptr :=
  match w.obj this with
  | some s => some s.ptr
  | none => none

/-- The member `String::copy_from` -/
def String.copy_from (w : World) (this x : Nat) : Outcome World Unit :=
  match w.obj this, w.obj x with
  | some _, some xs =>
    if xs.sz ≤ short_max then
      if this = x then .fault w
      else
        let w1 := w.setObj this xs
        .ok () (w1.setObj this { xs with ptr := .inl this })
    else
      if inInt (xs.sz + 1) then
        match expand w xs.ptr (xs.sz + 1) with
        | .ok p w1 => .ok () (w1.setObj this { ptr := .heap p, sz := xs.sz, u := .space 0 })
        | .thrown e w1 => .thrown e w1
        | .fault w1 => .fault w1
      else .fault w
  | _, _ => .fault w

/-- The member `String::move_from` -/
def String.move_from (w : World) (this x : Nat) : Outcome World Unit :=
  match w.obj this, w.obj x with
  | some ts, some xs =>
    if xs.sz ≤ short_max then
      if this = x then .fault w
      else
        let w1 := w.setObj this xs
        .ok () (w1.setObj this { xs with ptr := .inl this })
    else
      let w1 := w.setObj this { ts with ptr := xs.ptr, sz := xs.sz }
      match xs.u.getSpace with
      | none => .fault w1
      | some k =>
        let w2 := w.setObj this { ptr := xs.ptr, sz := xs.sz, u := .space k }
        match w2.obj x with
        | none => .fault w2
        | some xs2 =>
          .ok () (w2.setObj x { ptr := .inl x, sz := 0, u := .ch (xs2.u.cells.set 0 (some 0)) })
  | _, _ => .fault w

/-- The member `String::String()`, run on the storage at address `this`. -/
def String.ctor_default (w : World) (this : Nat) : Outcome World Unit :=
  match w.obj this with
  | none => .fault w
  | some s =>
    .ok () (w.setObj this { ptr := .inl this, sz := 0, u := .ch (s.u.cells.set 0 (some 0)) })

/-- The member `String::String(const char* p)`, run on the storage at address `this`,
with the argument pointing to the array `p`.  Members are initialised in the
order of their declaration: `ptr`, then `sz`, then the union; the initialiser
of `ptr` therefore reads `sz` as the storage happens to hold it. -/
def String.ctor_cstr (w : World) (this : Nat) (p : List Cell) : Outcome World Unit :=
  match w.obj this with
  | none => .fault w
  | some s =>
    let initPtr : Outcome World Ptr :=
      if s.sz ≤ short_max then .ok (.inl this) w
      else if inInt (s.sz + 1) then
        match w.heap.new_array (s.sz + 1) with
        | some (id, h1) => .ok (.heap id) { w with heap := h1 }
        | none => .thrown .bad_alloc w
      else .fault w
    match initPtr with
    | .ok q w1 =>
      let w2 := w1.setObj this { s with ptr := q }
      match cstr p with
      | none => .fault w2
      | some chars =>
        let w3 := w2.setObj this { ptr := q, sz := toInt32 chars.length, u := .space 0 }
        match w3.strcpy q chars with
        | none => .fault w3
        | some w4 => .ok () w4
    | .thrown e w1 => .thrown e w1
    | .fault w1 => .fault w1

/-- The member `String::String(const String&)` -/
def String.ctor_copy (w : World) (this x : Nat) : Outcome World Unit :=
  String.copy_from w this x

/-- The member `String::String(String&&)` -/
def String.ctor_move (w : World) (this x : Nat) : Outcome World Unit :=
  String.move_from w this x

/-- Lines 136 to 151 of `String::operator+(char)`: make room. -/
def String.append_grow (w : World) (this : Nat) : Outcome World Unit :=
  match w.obj this with
  | none => .fault w
  | some s =>
    if s.sz = short_max then
      let n := s.sz + s.sz + 2
      match expand w s.ptr n with
      | .ok _ w1 => .ok () (w1.setObj this { s with u := .space (n - s.sz - 2) })
      | .thrown e w1 => .thrown e w1
      | .fault w1 => .fault w1
    else if short_max < s.sz then
      match s.u.getSpace with
      | none => .fault w
      | some k =>
        if k = 0 then
          let n := s.sz + s.sz + 2
          if inInt n then
            match expand w s.ptr n with
            | .ok p w1 =>
              match s.ptr with
              | .inl _ => .fault w1
              | .heap old =>
                match w1.heap.delete_array old with
                | none => .fault w1
                | some h2 =>
                  let w2 : World := { w1 with heap := h2 }
                  .ok () (w2.setObj this { s with ptr := .heap p, u := .space (n - s.sz - 2) })
            | .thrown e w1 => .thrown e w1
            | .fault w1 => .fault w1
          else .fault w
        else
          if inInt (k - 1) then .ok () (w.setObj this { s with u := .space (k - 1) })
          else .fault w
    else .ok () w

/-- Lines 153 and 154 of `String::operator+(char)`: store `c`, count it, and
store the terminator. -/
def String.append_put (w : World) (this : Nat) (c : Int) : Outcome World Unit :=
  match w.obj this with
  | none => .fault w
  | some s =>
    match w.poke s.ptr s.sz c with
    | none => .fault w
    | some w1 =>
      match w1.obj this with
      | none => .fault w1
      | some s1 =>
        if inInt (s1.sz + 1) then
          let w2 := w1.setObj this { s1 with sz := s1.sz + 1 }
          match w2.poke s1.ptr (s1.sz + 1) 0 with
          | none => .fault w2
          | some w3 => .ok () w3
        else .fault w1

/-- The member `String::operator+(char c)` -/
def String.append (w : World) (this : Nat) (c : Int) : Outcome World Unit :=
  match String.append_grow w this with
  | .ok _ w1 => String.append_put w1 this c
  | .thrown e w1 => .thrown e w1
  | .fault w1 => .fault w1

/-- The statement `delete[] p` on a pointer, with `none` for the null pointer. -/
def World.delete_array (w : World) (p : Option Ptr) : Option World :=
  match p with
  | none => some w
  | some (.inl _) => none
  | some (.heap id) =>
    match w.heap.delete_array id with
    | some h1 => some { w with heap := h1 }
    | none => none

/-- The member `String::~String` -/
def String.dtor (w : World) (this : Nat) : Outcome World Unit :=
  match w.obj this with
  | none => .fault w
  | some s =>
    if short_max < s.sz then
      match w.delete_array (some s.ptr) with
      | some w1 => .ok () w1
      | none => .fault w
    else .ok () w

/-- The member `String::operator=(const String& x)` -/
def String.assign_copy (w : World) (this x : Nat) : Outcome World Unit :=
  if this = x then .ok () w
  else
    match w.obj this with
    | none => .fault w
    | some s =>
      let p : Option Ptr := if short_max < s.sz then some s.ptr else none
      match String.copy_from w this x with
      | .ok _ w1 =>
        match w1.delete_array p with
        | some w2 => .ok () w2
        | none => .fault w1
      | .thrown e w1 => .thrown e w1
      | .fault w1 => .fault w1

/-- The member `String::operator=(String&& x)` -/
def String.assign_move (w : World) (this x : Nat) : Outcome World Unit :=
  if this = x then .ok () w
  else
    match w.obj this with
    | none => .fault w
    | some s =>
      if short_max < s.sz then
        match w.delete_array (some s.ptr) with
        | some w1 => String.move_from w1 this x
        | none => .fault w
      else String.move_from w this x

/-- The operations by which a program builds and changes `String` values.
A constructor runs on fresh storage whose previous content is `raw`. -/
inductive Op where
  | ctor_default (raw : String)
  | ctor_cstr (raw : String) (p : List Cell)
  | ctor_copy (raw : String) (x : Nat)
  | ctor_move (raw : String) (x : Nat)
  | assign_copy (this x : Nat)
  | assign_move (this x : Nat)
  | append (this : Nat) (c : Int)
  deriving DecidableEq

/-- Storage for a new object, placed at the next free address. -/
def World.fresh (w : World) (raw : String) : World :=
  { w with objs := w.objs ++ [raw] }

/-- Run one operation.  The argument of a copy or move constructor is an
object constructed before. -/
def World.step (w : World) : Op → Outcome World Unit
  | .ctor_default raw => String.ctor_default (w.fresh raw) w.objs.length
  | .ctor_cstr raw p => String.ctor_cstr (w.fresh raw) w.objs.length p
  | .ctor_copy raw x =>
    if x < w.objs.length then String.ctor_copy (w.fresh raw) w.objs.length x else .fault w
  | .ctor_move raw x =>
    if x < w.objs.length then String.ctor_move (w.fresh raw) w.objs.length x else .fault w
  | .assign_copy this x => String.assign_copy w this x
  | .assign_move this x => String.assign_move w this x
  | .append this c => String.append w this c

/-- Run operations in order, stopping at the first that does not return. -/
def World.run (w : World) : List Op → Outcome World Unit
  | [] => .ok () w
  | op :: ops =>
    match w.step op with
    | .ok _ w1 => w1.run ops
    | .thrown e w1 => .thrown e w1
    | .fault w1 => .fault w1

/-- The state of a program that has no `String` yet and can still allocate
`avail` code units. -/
def World.init (avail : Nat) : World :=
  { objs := [], heap := { bufs := [], avail := avail } }

/-! ## The helper functions of the source -/

/-- The length of the array `ptr` of the object at `a` refers to, 0 when
there is none. -/
def String.span (w : World) (a : Nat) : Nat :=
  match w.obj a with
  | none => 0
  | some s =>
    match w.view s.ptr with
    | some cells => cells.length
    | none => 0

/-- The loop `for (int i = 0; i != a.size(); ++i) if (a[i] != b[i]) return
false;` of `operator==` followed by `return true`, entered at index `i`.
The first argument bounds the number of tests of the loop condition that are
still run; `String.eq` passes a bound that is never reached, because the loop
ends at `i == a.size()` or at the first read outside the array of `a`. -/
def String.eq_loop (w : World) (a b : Nat) : Nat → Int → Outcome World Bool
  | 0, _ => .fault w
  | fuel + 1, i =>
    match String.size w a with
    | none => .fault w
    | some n =>
      if i = n then .ok true w
      else
        match String.index w a i with
        | .ok x _ =>
          match String.index w b i with
          | .ok y _ =>
            if x ≠ y then .ok false w
            else if inInt (i + 1) then String.eq_loop w a b fuel (i + 1)
            else .fault w
          | .thrown e w1 => .thrown e w1
          | .fault w1 => .fault w1
        | .thrown e w1 => .thrown e w1
        | .fault w1 => .fault w1

/-- The function `operator==(const String& a, const String& b)`. -/
def String.eq (w : World) (a b : Nat) : Outcome World Bool :=
  match String.size w a, String.size w b with
  | some n, some m =>
    if n ≠ m then .ok false w
    else String.eq_loop w a b (n.toNat + String.span w a + 1) 0
  | _, _ => .fault w

/-- The function `operator!=(const String& a, const String& b)`. -/
def String.ne (w : World) (a b : Nat) : Outcome World Bool :=
  match String.eq w a b with
  | .ok r w1 => .ok (!r) w1
  | .thrown e w1 => .thrown e w1
  | .fault w1 => .fault w1

/-- The function `begin(const String& x)`: the pointer returned. -/
def String.begin_ (w : World) (x : Nat) : Option Ptr := String.c_str w x

/-- The function `end(const String& x)`: the offset of the pointer returned
from `c_str()`; `none` when `c_str() + size()` is not a position of the array
or the one past its end. -/
def String.end_ (w : World) (x : Nat) : Option Nat :=
  match w.obj x with
  | none => none
  | some s =>
    match w.view s.ptr with
    | none => none
    | some cells =>
      if 0 ≤ s.sz ∧ s.sz ≤ (cells.length : Int) then some s.sz.toNat else none

/-- The loop `for (auto x : b) dst = dst + x;` with the iterator at offset
`i` of `p` and `n` code units before the end.  The sum `dst + x` is a
reference to `dst`, so that the assignment is a copy assignment of `dst` to
itself. -/
def String.append_range (dst : Nat) (p : Ptr) : Nat → Int → World → Outcome World Unit
  | 0, _, w => .ok () w
  | n + 1, i, w =>
    match w.peek p i with
    | none => .fault w
    | some x =>
      match String.append w dst x with
      | .ok _ w1 =>
        match String.assign_copy w1 dst dst with
        | .ok _ w2 => String.append_range dst p n (i + 1) w2
        | .thrown e w2 => .thrown e w2
        | .fault w2 => .fault w2
      | .thrown e w1 => .thrown e w1
      | .fault w1 => .fault w1

/-- The function `operator+=(String& a, const String& b)`. -/
def String.append_all (w : World) (a b : Nat) : Outcome World Unit :=
  match String.begin_ w b, String.end_ w b with
  | some p, some n => String.append_range a p n 0 w
  | _, _ => .fault w

/-- The function `operator+(const String& a, const String& b)`.  The local
`res` is built on fresh storage whose previous content is `raw`; it is the
value returned (the copy on return is elided), and its address is the
result. -/
def String.concat (w : World) (raw : String) (a b : Nat) : Outcome World Nat :=
  if a < w.objs.length ∧ b < w.objs.length then
    match String.ctor_copy (w.fresh raw) w.objs.length a with
    | .ok _ w1 =>
      match String.begin_ w1 b, String.end_ w1 b with
      | some p, some n =>
        match String.append_range w.objs.length p n 0 w1 with
        | .ok _ w2 => .ok w.objs.length w2
        | .thrown e w2 => .thrown e w2
        | .fault w2 => .fault w2
      | _, _ => .fault w1
    | .thrown e w1 => .thrown e w1
    | .fault w1 => .fault w1
  else .fault w

/-! ## Well-formed values -/

/-- The object at address `a` is a well-formed value holding the code units
`S`: its length is that of `S`; the array `ptr` refers to starts with `S`
followed by the terminating zero; `ptr` refers to the object's own array `ch`
when the length is at most `short_max`, and otherwise to a free-store array
that has room for the length, the terminator and `space` further code
units, `space` being not negative. -/
def World.Holds (w : World) (a : Nat) (S : List Int) : Prop :=
  ∃ s cells, w.obj a = some s ∧ s.sz = S.length ∧ w.view s.ptr = some cells ∧
    (S ++ [0]).map some <+: cells ∧
    (s.sz ≤ short_max → s.ptr = .inl a) ∧
    (short_max < s.sz → ∃ id k, s.ptr = .heap id ∧ s.u = .space k ∧ 0 ≤ k ∧
      s.sz + 1 + k ≤ cells.length ∧ (cells.length : Int) ≤ INT_MAX)

/-- The state `w1` differs from `w` at most in the object at `b`, in the
allocations numbered `L` or more, and by further allocations. -/
def World.Below (L b : Nat) (w w1 : World) : Prop :=
  (∀ o, o ≠ b → w1.obj o = w.obj o) ∧
  (∀ id, id < L → w1.heap.lookup id = w.heap.lookup id) ∧
  w.heap.bufs.length ≤ w1.heap.bufs.length

/-- The program `s + c` for each `c` of `cs` in turn, `s` being the object
at `b`. -/
def appends (b : Nat) (cs : List Int) : List Op := cs.map (Op.append b)

/-! ## Concrete programs -/

/-- Storage that was never written as a `String`: a stale pointer, a zero
where `sz` lives, and an indeterminate array. -/
def raw0 : String := { ptr := .heap 7, sz := 0, u := .ch (List.replicate 16 none) }

/-- Storage like `raw0` whose `sz` bytes happen to hold `n`. -/
def rawSz (n : Int) : String := { raw0 with sz := n }

/-- The array holding `n` times the letter `a` and the terminating zero. -/
def lit (n : Nat) : List Cell := List.replicate n (some 97) ++ [some 0]

/-- The program `String s; s + 'a'; ...` with fifteen appends. -/
def fifteen : List Op := Op.ctor_default raw0 :: List.replicate 15 (Op.append 0 97)

/-- The state after `fifteen`. -/
def w15 : World := ((World.init 64).run fifteen).state

/-- The state in which the sixteenth append ends. -/
def w16 : World := (String.append w15 0 98).state

/-- The program `String x{"aaaaaaaaaaaaaaaa"}; x + '\0'; x + 'b'; String y{x};`
started on storage whose `sz` bytes hold 16. -/
def zeroInside : List Op :=
  [.ctor_cstr (rawSz 16) (lit 16), .append 0 0, .append 0 98, .ctor_copy raw0 0]

/-- The state after `zeroInside`. -/
def wZero : World := ((World.init 128).run zeroInside).state

/-- The program `String x{"aaaa"}; String y{x};` started on storage whose `sz`
bytes hold 16. -/
def staleSz : List Op := [.ctor_cstr (rawSz 16) (lit 4), .ctor_copy raw0 0]

/-- The state after `staleSz`. -/
def wStale : World := ((World.init 64).run staleSz).state

/-- The program `String a; a + 'a'; a + 'b'; a + 'c'; String b{std::move(a)};`. -/
def movedShort : List Op :=
  [.ctor_default raw0, .append 0 97, .append 0 98, .append 0 99, .ctor_move raw0 0]

/-- The state after `movedShort`. -/
def wMoved : World := ((World.init 0).run movedShort).state

/-- The state after `String a{"aaaaaaaaaaaaaaaa"}; String b;`, the first
constructor started on storage whose `sz` bytes hold 16. -/
def wPair : World :=
  ((World.init 256).run [.ctor_cstr (rawSz 16) (lit 16), .ctor_default raw0]).state

/-- The array holding the code units `l` and the terminating zero. -/
def str (l : List Int) : List Cell := l.map some ++ [some 0]

/-- The state after `String s1{"Test"}; String s2{"abcdsda"};`, started on
storage whose `sz` bytes hold 0. -/
def wTest : World :=
  ((World.init 64).run [.ctor_cstr raw0 (str [84, 101, 115, 116]),
    .ctor_cstr raw0 (str [97, 98, 99, 100, 115, 100, 97])]).state

/-- The state after `String s1{"aaaaaaaaaa"}; String s2{"aaaaaaaaaa"};`,
started on storage whose `sz` bytes hold 0. -/
def wTen : World :=
  ((World.init 64).run [.ctor_cstr raw0 (lit 10), .ctor_cstr raw0 (lit 10)]).state

/-- The state after `fifteen` in a free store that can allocate 20 code
units only. -/
def w15tight : World := ((World.init 20).run fifteen).state

/-- The object holding `"abcdsda"` in `wTest`. -/
def sAbcdsda : String :=
  { ptr := .inl 1, sz := 7, u := .ch (str [97, 98, 99, 100, 115, 100, 97] ++ List.replicate 8 none) }

/-- The state after the first half of the sixteenth append. -/
def w15grown : World := (String.append_grow w15 0).state

/-- The state in which the first of the two stores of the sixteenth append
ends. -/
def w15stored : World := (w15grown.poke (.inl 0) 15 98).getD w15grown

/-- The state in which `s1 + s2` ends in `wTest`. -/
def wTestSum : World := (String.concat wTest raw0 0 1).state

/-- The state in which `s1 + s2` ends in `wTen`. -/
def wTenSum : World := (String.concat wTen raw0 0 1).state

/-- C1 (the code departs from the claim): fifteen appends to an empty value
return normally and give a value of length 15, and the next append, the one
made at length 15, does not return: `expand` allocates 32 code units but its
result is dropped, `ptr` still refers to the 16-unit array `ch`, the store to
`space` has taken the place of the fifteen code units, and the store of the
terminator at position 16 falls outside `ch`. -/
theorem append_at_short_max_faults :
    (World.init 64).run fifteen = .ok () w15 ∧
    String.size w15 0 = some 15 ∧
    w15.view (.inl 0) = some (List.replicate 15 (some 97) ++ [some 0]) ∧
    String.append w15 0 98 = .fault w16 ∧
    String.size w16 0 = some 16 ∧
    String.c_str w16 0 = some (.inl 0) ∧
    w16.view (.inl 0) = some (List.replicate 15 none ++ [some 98]) ∧
    w16.heap.lookup 0 = some (List.replicate 15 (some 97) ++ [some 0] ++ List.replicate 16 none) := by
  decide

/-- C2 (the code departs from the claim): `ptr` is initialised before `sz`, from
whatever the storage of `sz` holds.  On storage holding 0 the constructor
takes the array `ch` for a sequence of 16 code units and `strcpy` runs past
its end; on storage holding 16 it allocates 17 code units for a sequence of
4, so that the value of length 4 is not inline. -/
theorem ctor_cstr_reads_stale_sz :
    (World.init 64).step (.ctor_cstr raw0 (lit 16)) =
      .fault { objs := [{ ptr := .inl 0, sz := 16, u := .space 0 }],
               heap := { bufs := [], avail := 64 } } ∧
    (World.init 64).step (.ctor_cstr (rawSz 16) (lit 4)) =
      .ok () { objs := [{ ptr := .heap 0, sz := 4, u := .space 0 }],
               heap := { bufs := [some (lit 4 ++ List.replicate 12 none)], avail := 47 } } := by
  decide

/-- C3 (the code departs from the claim): in the state in which the sixteenth
append to an empty value ends, the length is 16 and the active array is the
16-unit array `ch`, so position `size()` is outside it; and a copy of a value
whose `ptr` was initialised from a stale `sz` has length 4 and no readable
code unit at position 4. -/
theorem sentinel_lost :
    (World.init 64).run (fifteen ++ [.append 0 98]) = .fault w16 ∧
    String.size w16 0 = some 16 ∧
    (w16.view (.inl 0)).map List.length = some 16 ∧
    String.index w16 0 16 = .fault w16 ∧
    (World.init 64).run staleSz = .ok () wStale ∧
    String.size wStale 1 = some 4 ∧
    String.index wStale 1 4 = .fault wStale := by
  decide

/-- C4 (the code departs from the claim): the sixteenth append to an empty
value leaves `ptr` referring to the object's own array at length 16, and the
constructor run on storage whose `sz` bytes hold 16 gives a value of length 4
whose `ptr` refers to the free store. -/
theorem mode_mismatch :
    ((World.init 64).run (fifteen ++ [.append 0 98])).state.obj 0 =
      some { ptr := .inl 0, sz := 16, u := .ch (List.replicate 15 none ++ [some 98]) } ∧
    ((World.init 64).run (fifteen ++ [.append 0 98])).done = none ∧
    ((World.init 64).run [.ctor_cstr (rawSz 16) (lit 4)]).done.map (fun w => w.obj 0) =
      some (some { ptr := .heap 0, sz := 4, u := .space 0 }) := by
  decide

/-- C7 (the code departs from the claim): a value of length 18 in the free
store whose code unit at position 16 is zero is copied by `strcpy` up to that
zero only; the copy has length 18, nothing readable at position 17, where the
source holds `b`, and no terminator at position 18. -/
theorem copy_stops_at_zero :
    (World.init 128).run zeroInside = .ok () wZero ∧
    String.size wZero 0 = some 18 ∧
    String.size wZero 1 = some 18 ∧
    String.index wZero 0 17 = .ok 98 wZero ∧
    String.index wZero 0 18 = .ok 0 wZero ∧
    String.index wZero 1 16 = .ok 0 wZero ∧
    String.index wZero 1 17 = .fault wZero ∧
    String.index wZero 1 18 = .fault wZero := by
  decide

/-- Reading inside a known beginning of an array. -/
theorem readAt_of_prefix (l : List Int) (cells : List Cell) (h : l.map some <+: cells)
    (i : Nat) (hi : i < l.length) : readAt cells (i : Int) = some (l.get ⟨i, hi⟩) := by
  obtain ⟨t, rfl⟩ := h
  have h1 : (List.map some l ++ t)[i]? = some (some (l.get ⟨i, hi⟩)) := by
    rw [List.getElem?_append_left (by simpa using hi)]
    simp [List.getElem?_map, List.getElem?_eq_getElem hi]
  simp [readAt, h1]

/-- On a well-formed value `operator[]` returns the code units held and the
terminator after them. -/
theorem index_of_holds (w : World) (a : Nat) (S : List Int) (h : w.Holds a S)
    (i : Nat) (hi : i < (S ++ [0]).length) :
    String.index w a (i : Int) = .ok ((S ++ [0]).get ⟨i, hi⟩) w := by
  obtain ⟨s, cells, hs, -, hv, hpre, -, -⟩ := h
  simp only [String.index, hs, World.peek, hv, readAt_of_prefix _ _ hpre i hi]

/-- C6: `at(n)` throws `out_of_range` exactly when `n < 0` or `size() <= n`,
and otherwise is the unchecked `operator[]`; a throw leaves the state as it
was; `at(size())` always throws; `at(size() - 1)` passes the check when the
length is positive, and on a well-formed value returns its last code unit. -/
theorem at_checks_the_range (w : World) (this : Nat) (s : String) (n : Int)
    (hs : w.obj this = some s) :
    (String.at_ w this n = .thrown .out_of_range w ↔ (n < 0 ∨ s.sz ≤ n)) ∧
    (¬ (n < 0 ∨ s.sz ≤ n) → String.at_ w this n = String.index w this n) ∧
    (∀ e w1, String.at_ w this n = .thrown e w1 → e = .out_of_range ∧ w1 = w) ∧
    String.at_ w this s.sz = .thrown .out_of_range w ∧
    (0 < s.sz → String.at_ w this (s.sz - 1) = String.index w this (s.sz - 1)) ∧
    (∀ S, w.Holds this S → 0 < s.sz →
      ∃ c, String.at_ w this (s.sz - 1) = .ok c w ∧ S.getLast? = some c) := by
  have hidx : ∀ m, ∀ e w1, String.index w this m ≠ .thrown e w1 := by
    intro m e w1
    simp only [String.index, hs]
    cases w.peek s.ptr m <;> simp
  have hin : ∀ m, ¬ (m < 0 ∨ s.sz ≤ m) → String.at_ w this m = String.index w this m := by
    intro m hm
    simp [String.at_, String.check, hs, hm]
  have hout : ∀ m, (m < 0 ∨ s.sz ≤ m) → String.at_ w this m = .thrown .out_of_range w := by
    intro m hm
    simp [String.at_, String.check, hs, hm]
  refine ⟨⟨?_, hout n⟩, hin n, ?_, hout _ (Or.inr le_rfl), ?_, ?_⟩
  · intro h
    by_contra hn
    rw [hin n hn] at h
    exact hidx _ _ _ h
  · intro e w1 h
    by_cases hn : n < 0 ∨ s.sz ≤ n
    · rw [hout n hn] at h
      cases h
      exact ⟨rfl, rfl⟩
    · rw [hin n hn] at h
      exact absurd h (hidx _ _ _)
  · intro hpos
    exact hin _ (by omega)
  · intro S hS hpos
    have hS2 := hS
    obtain ⟨s1, cells, hs1, hsz, -, -, -, -⟩ := hS2
    rw [hs] at hs1
    cases hs1
    have hlen : 0 < S.length := by omega
    have hi : S.length - 1 < (S ++ [0]).length := by simp; omega
    refine ⟨(S ++ [0]).get ⟨S.length - 1, hi⟩, ?_, ?_⟩
    · rw [hin _ (by omega)]
      have := index_of_holds w this S hS (S.length - 1) hi
      have hcast : ((S.length - 1 : Nat) : Int) = s.sz - 1 := by omega
      rw [hcast] at this
      exact this
    · rw [List.getLast?_eq_getElem?]
      simp [List.getElem?_eq_getElem, hlen, List.getElem_append_left]

/-- C6 at a value of length 15: `at(15)` throws and `at(14)` returns `a`. -/
theorem at_checks_the_range_witness :
    w15.obj 0 = some { ptr := .inl 0, sz := 15, u := .ch (lit 15) } ∧
    String.at_ w15 0 15 = .thrown .out_of_range w15 ∧
    String.at_ w15 0 (15 - 1) = String.index w15 0 (15 - 1) :=
  have h := at_checks_the_range w15 0 { ptr := .inl 0, sz := 15, u := .ch (lit 15) } 15
    (by decide)
  ⟨by decide, h.2.2.2.1, h.2.2.2.2.1 (by decide)⟩

/-! ### The members stay sound -/

theorem Store.cells_length (u : Store) : u.cells.length = 16 := by
  cases u <;> simp [Store.cells]

theorem World.obj_setObj (w : World) (a b : Nat) (s : String) :
    (w.setObj a s).obj b =
      if a = b then (if a < w.objs.length then some s else none) else w.obj b := by
  simp [World.obj, World.setObj, List.getElem?_set]

theorem World.obj_lt {w : World} {a : Nat} {s : String} (h : w.obj a = some s) :
    a < w.objs.length := by
  unfold World.obj at h
  by_contra hn
  rw [List.getElem?_eq_none (by omega)] at h
  cases h

theorem World.setObj_setObj (w : World) (a : Nat) (s t : String) :
    (w.setObj a s).setObj a t = w.setObj a t := by
  simp [World.setObj, List.set_set]

theorem World.obj_of_objs_eq {w w1 : World} (e : w1.objs = w.objs) (a : Nat) :
    w1.obj a = w.obj a := by
  simp [World.obj, e]

theorem World.setView_heap_objs (w : World) (id : Nat) (cells : List Cell) :
    (w.setView (.heap id) cells).objs = w.objs := rfl

theorem World.strcpy_heap_objs {w w1 : World} {id : Nat} {chars : List Int}
    (h : w.strcpy (.heap id) chars = some w1) : w1.objs = w.objs := by
  unfold World.strcpy at h
  split at h
  · split at h
    · cases h; rfl
    · cases h
  · cases h

theorem expand_objs (w : World) (p : Ptr) (n : Int) : (expand w p n).state.objs = w.objs := by
  unfold expand
  split
  · rfl
  · dsimp only
    split
    · rfl
    · split
      · rfl
      · split
        · rfl
        · next h => exact (World.strcpy_heap_objs h).trans rfl

theorem expand_ok_objs {w w1 : World} {p : Ptr} {n : Int} {q : Nat}
    (h : expand w p n = .ok q w1) : w1.objs = w.objs := by
  have := expand_objs w p n
  rw [h] at this
  exact this

theorem World.delete_array_objs {w w1 : World} {p : Option Ptr}
    (h : w.delete_array p = some w1) : w1.objs = w.objs := by
  unfold World.delete_array at h
  split at h
  · cases h; rfl
  · cases h
  · split at h
    · cases h; rfl
    · cases h


theorem inInt_iff (v : Int) : inInt v = true ↔ INT_MIN ≤ v ∧ v ≤ INT_MAX := by
  simp [inInt]

theorem World.poke_inl {w w1 : World} {o : Nat} {n c : Int}
    (h : w.poke (.inl o) n c = some w1) :
    ∃ s cells1, w.obj o = some s ∧ 0 ≤ n ∧ n < 16 ∧
      w1 = w.setObj o { s with u := .ch cells1 } := by
  unfold World.poke World.view at h
  cases ho : w.obj o with
  | none => simp [ho] at h
  | some s =>
    simp only [ho] at h
    unfold writeAt at h
    split at h
    · next cells1 hc =>
      split at hc
      · next hlen =>
        rw [Store.cells_length] at hlen
        cases h
        exact ⟨s, cells1, rfl, hlen.1, by simpa using hlen.2, by simp [World.setView, ho]⟩
      · cases hc
    · cases h

theorem World.fresh_obj {w : World} {raw : String} {a : Nat} (ha : a ≠ w.objs.length) :
    (w.fresh raw).obj a = w.obj a := by
  unfold World.fresh World.obj
  dsimp only
  rcases Nat.lt_or_gt_of_ne ha with h | h
  · rw [List.getElem?_append_left h]
  · rw [List.getElem?_eq_none (by simp; omega), List.getElem?_eq_none (by omega)]

theorem World.view_setObj_heap (w : World) (a : Nat) (s : String) (id : Nat) :
    (w.setObj a s).view (.heap id) = w.view (.heap id) := rfl

theorem World.view_setObj_inl (w : World) (a o : Nat) (s : String) :
    (w.setObj a s).view (.inl o) =
      if a = o then (if a < w.objs.length then some s.u.cells else none)
      else w.view (.inl o) := by
  simp only [World.view, World.obj_setObj]
  by_cases e : a = o
  · subst e
    simp only [if_true]
    by_cases hl : a < w.objs.length
    · simp only [hl, if_true]
    · simp only [hl, if_false]
  · simp only [e, if_false]

theorem move_from_inline {w : World} {this x : Nat} {ts xs : String}
    (hne : this ≠ x) (hts : w.obj this = some ts) (hxs : w.obj x = some xs)
    (hsmall : xs.sz ≤ short_max) :
    String.move_from w this x = .ok () (w.setObj this { xs with ptr := .inl this }) := by
  simp [String.move_from, hts, hxs, hsmall, hne, World.setObj_setObj]

theorem move_from_heap {w : World} {this x : Nat} {ts xs : String} {k : Int}
    (hne : this ≠ x) (hts : w.obj this = some ts) (hxs : w.obj x = some xs)
    (hbig : short_max < xs.sz) (hu : xs.u = .space k) :
    String.move_from w this x = .ok ()
      ((w.setObj this { ptr := xs.ptr, sz := xs.sz, u := .space k }).setObj x
        { ptr := .inl x, sz := 0, u := .ch ((List.replicate 16 none).set 0 (some 0)) }) := by
  have h2 : (w.setObj this { ptr := xs.ptr, sz := xs.sz, u := .space k }).obj x = some xs := by
    rw [World.obj_setObj, if_neg hne, hxs]
  simp only [String.move_from, hts, hxs, not_le.2 hbig, if_false, hu, Store.getSpace, h2,
    Store.cells]

/-- The empty value left behind by a move out of the free store is well formed. -/
theorem holds_nil_of_reset {w : World} {x : Nat} {cells : List Cell}
    (hx : w.obj x = some { ptr := .inl x, sz := 0, u := .ch (cells.set 0 (some 0)) })
    (hlen : cells.length = 16) : w.Holds x [] := by
  refine ⟨_, (Store.ch (cells.set 0 (some 0))).cells, hx, rfl, ?_, ?_, fun _ => rfl,
    fun h => ?_⟩
  · simp only [World.view, hx]
  · dsimp only [Store.cells]
    match cells, hlen with
    | c :: rest, _ =>
      simp only [List.set_cons_zero, List.cons_append, List.nil_append, List.map_cons,
        List.map_nil, List.take_succ_cons]
      exact ⟨_, rfl⟩
  · dsimp only at h
    unfold short_max at h
    omega


theorem Heap.lookup_delete_array {h h1 : Heap} {j : Nat} (hd : h.delete_array j = some h1)
    (id : Nat) (hne : id ≠ j) : h1.lookup id = h.lookup id := by
  unfold Heap.delete_array at hd
  split at hd
  · cases hd
    simp only [Heap.lookup, List.getElem?_set_ne (Ne.symm hne)]
  · cases hd

/-- Move assignment between distinct objects is `move_from` run after the
release of the destination's free-store array. -/
theorem assign_move_ok {w w1 : World} {this x : Nat} {ts : String}
    (hne : this ≠ x) (hts : w.obj this = some ts)
    (h : String.assign_move w this x = .ok () w1) :
    ∃ w2 : World, w2.objs = w.objs ∧ String.move_from w2 this x = .ok () w1 ∧
      ∀ id, ts.ptr ≠ .heap id → w2.heap.lookup id = w.heap.lookup id := by
  simp only [String.assign_move, hne, if_false, hts] at h
  split at h
  · split at h
    · next w2 hd =>
      refine ⟨w2, World.delete_array_objs hd, h, ?_⟩
      intro id hid
      cases hp : ts.ptr with
      | inl o => rw [hp] at hd; simp [World.delete_array] at hd
      | heap j =>
        rw [hp] at hd hid
        simp only [World.delete_array] at hd
        split at hd
        · next h1 hdel =>
          cases hd
          exact Heap.lookup_delete_array hdel id (fun e => hid (by rw [e]))
        · cases hd
    · cases h
  · exact ⟨w, rfl, h, fun _ _ => rfl⟩

/-- What `move_from` leaves in the source. -/
theorem move_from_source {w : World} {this x : Nat} {ts xs : String} {S : List Int}
    (hne : this ≠ x) (hts : w.obj this = some ts) (hxs : w.obj x = some xs)
    (hsz : xs.sz = S.length)
    (hin : xs.sz ≤ short_max → xs.ptr = .inl x ∧ (S ++ [0]).map some <+: xs.u.cells)
    (hheap : short_max < xs.sz → ∃ k, xs.u = .space k) :
    ∃ w1, String.move_from w this x = .ok () w1 ∧
      (short_max < xs.sz →
        String.size w1 x = some 0 ∧ String.c_str w1 x = some (.inl x) ∧ w1.Holds x []) ∧
      (xs.sz ≤ short_max → w1.obj x = some xs ∧ w1.Holds x S) := by
  have hxl := World.obj_lt hxs
  by_cases hbig : short_max < xs.sz
  · obtain ⟨k, hu⟩ := hheap hbig
    refine ⟨_, move_from_heap hne hts hxs hbig hu, fun _ => ?_, fun h => absurd hbig (not_lt.2 h)⟩
    have hobj : ((w.setObj this { ptr := xs.ptr, sz := xs.sz, u := .space k }).setObj x
        { ptr := .inl x, sz := 0, u := .ch ((List.replicate 16 none).set 0 (some 0)) }).obj x =
        some { ptr := .inl x, sz := 0, u := .ch ((List.replicate 16 none).set 0 (some 0)) } := by
      rw [World.obj_setObj, if_pos rfl, if_pos]
      simpa [World.setObj] using hxl
    refine ⟨?_, ?_, holds_nil_of_reset hobj (by simp)⟩
    · simp only [String.size, hobj]
    · simp only [String.c_str, hobj]
  · have hsmall : xs.sz ≤ short_max := not_lt.1 hbig
    obtain ⟨hp, hpre⟩ := hin hsmall
    refine ⟨_, move_from_inline hne hts hxs hsmall, fun h => absurd h hbig, fun _ => ?_⟩
    have hobj : (w.setObj this { xs with ptr := .inl this }).obj x = some xs := by
      rw [World.obj_setObj, if_neg hne, hxs]
    refine ⟨hobj, xs, xs.u.cells, hobj, hsz, ?_, hpre, fun _ => hp, fun h => absurd h hbig⟩
    rw [hp, World.view_setObj_inl, if_neg hne]
    simp only [World.view, hxs]

theorem holds_members {w : World} {x : Nat} {S : List Int} (hx : w.Holds x S) :
    ∃ xs, w.obj x = some xs ∧ xs.sz = S.length ∧
      (xs.sz ≤ short_max → xs.ptr = .inl x ∧ (S ++ [0]).map some <+: xs.u.cells) ∧
      (short_max < xs.sz → ∃ k, xs.u = .space k) := by
  obtain ⟨xs, cells, hxs, hsz, hv, hpre, hi, hh⟩ := hx
  refine ⟨xs, hxs, hsz, fun h => ?_, fun h => ?_⟩
  · have hp := hi h
    rw [hp] at hv
    simp only [World.view, hxs, Option.some.injEq] at hv
    exact ⟨hp, hv ▸ hpre⟩
  · obtain ⟨id, k, -, hu, -⟩ := hh h
    exact ⟨k, hu⟩


/-- Move assignment between distinct well-formed values returns. -/
theorem assign_move_returns {w : World} {this x : Nat} {T S : List Int}
    (hne : this ≠ x) (ht : w.Holds this T) (hx : w.Holds x S) :
    ∃ w1, String.assign_move w this x = .ok () w1 := by
  obtain ⟨xs, hxs, hsz, hin, hheap⟩ := holds_members hx
  obtain ⟨ts, cells, hts, -, hv, -, -, hb⟩ := ht
  simp only [String.assign_move, hne, if_false, hts]
  by_cases hbig : short_max < ts.sz
  · obtain ⟨id, k, hp, -⟩ := hb hbig
    rw [hp] at hv
    simp only [World.view] at hv
    simp only [hbig, if_true, hp, World.delete_array, Heap.delete_array, hv]
    obtain ⟨w1, h1, -⟩ := move_from_source (w := { w with heap :=
      { bufs := w.heap.bufs.set id none, avail := w.heap.avail + cells.length } })
      hne hts hxs hsz hin hheap
    exact ⟨w1, h1⟩
  · simp only [hbig, if_false]
    obtain ⟨w1, h1, -⟩ := move_from_source hne hts hxs hsz hin hheap
    exact ⟨w1, h1⟩

/-- C9 (amended): a move (construction or assignment) into a distinct object
from a well-formed value returns; when the source held more than `short_max`
code units it is left as a well-formed empty value, `ptr` referring to its own
array; when it held at most `short_max` code units it is left as it was. -/
theorem move_leaves_source_valid (w : World) (this x : Nat) (ts : String) (S : List Int)
    (hne : this ≠ x) (hts : w.obj this = some ts) (hx : w.Holds x S) :
    (∃ w1, String.ctor_move w this x = .ok () w1) ∧
    (∀ T, w.Holds this T → ∃ w1, String.assign_move w this x = .ok () w1) ∧
    ∀ w1, (String.ctor_move w this x = .ok () w1 ∨ String.assign_move w this x = .ok () w1) →
      (short_max < (S.length : Int) →
        String.size w1 x = some 0 ∧ String.c_str w1 x = some (.inl x) ∧ w1.Holds x []) ∧
      ((S.length : Int) ≤ short_max →
        String.size w1 x = some (S.length : Int) ∧ w1.obj x = w.obj x ∧ w1.Holds x S) := by
  obtain ⟨xs, hxs, hsz, hin, hheap⟩ := holds_members hx
  have key : ∀ w2 : World, w2.objs = w.objs → ∀ w1, String.move_from w2 this x = .ok () w1 →
      (short_max < (S.length : Int) →
        String.size w1 x = some 0 ∧ String.c_str w1 x = some (.inl x) ∧ w1.Holds x []) ∧
      ((S.length : Int) ≤ short_max →
        String.size w1 x = some (S.length : Int) ∧ w1.obj x = w.obj x ∧ w1.Holds x S) := by
    intro w2 ho w1 h
    have hts2 : w2.obj this = some ts := by rw [World.obj_of_objs_eq ho, hts]
    have hxs2 : w2.obj x = some xs := by rw [World.obj_of_objs_eq ho, hxs]
    obtain ⟨w3, h3, hA, hB⟩ := move_from_source hne hts2 hxs2 hsz hin hheap
    rw [h] at h3
    cases h3
    rw [← hsz]
    refine ⟨hA, fun hle => ?_⟩
    obtain ⟨h1, h2⟩ := hB hle
    exact ⟨by simp only [String.size, h1], h1.trans hxs.symm, h2⟩
  refine ⟨?_, fun T hT => assign_move_returns hne hT hx, ?_⟩
  · obtain ⟨w1, h1, -⟩ := move_from_source hne hts hxs hsz hin hheap
    exact ⟨w1, h1⟩
  · intro w1 h
    rcases h with h | h
    · exact key w rfl w1 h
    · obtain ⟨w2, ho, hm, -⟩ := assign_move_ok hne hts h
      exact key w2 ho w1 hm

/-- The value of sixteen `a` in `wPair` is well formed. -/
theorem wPair_holds : wPair.Holds 0 (List.replicate 16 97) :=
  ⟨{ ptr := .heap 0, sz := 16, u := .space 0 }, lit 16, by decide, by decide, by decide,
    ⟨[], by decide⟩, fun h => absurd h (by decide),
    fun _ => ⟨0, 0, rfl, rfl, le_rfl, by decide, by decide⟩⟩

/-- C9 (as stated, refuted): a value of length 3, which lives in the array
`ch`, still has length 3 after it was moved from. -/
theorem move_from_inline_keeps_length :
    (World.init 0).run movedShort = .ok () wMoved ∧
    String.size wMoved 0 = some 3 ∧
    String.size wMoved 0 ≠ some 0 ∧
    String.size wMoved 1 = some 3 := by
  decide

/-- C9 (amended) at the move assignment `b = std::move(a)` in `wPair`, `a`
holding sixteen code units: afterwards `a` has length 0 and `ptr` refers to
its own array. -/
theorem move_leaves_source_valid_witness :
    (1 : Nat) ≠ 0 ∧ wPair.Holds 0 (List.replicate 16 97) ∧
    (∃ w1, String.ctor_move wPair 1 0 = .ok () w1) ∧
    String.size (String.assign_move wPair 1 0).state 0 = some 0 ∧
    String.c_str (String.assign_move wPair 1 0).state 0 = some (.inl 0) :=
  have h := move_leaves_source_valid wPair 1 0
    { ptr := .inl 1, sz := 0, u := .ch ((List.replicate 16 none).set 0 (some 0)) }
    (List.replicate 16 97) (by decide) (by decide) wPair_holds
  have h2 := (h.2.2 (String.assign_move wPair 1 0).state (Or.inr (by decide))).1 (by decide)
  ⟨by decide, wPair_holds, h.1, h2.1, h2.2.1⟩

theorem World.Below.trans {L b : Nat} {w w1 w2 : World}
    (h1 : w.Below L b w1) (h2 : w1.Below L b w2) : w.Below L b w2 :=
  ⟨fun o ho => (h2.1 o ho).trans (h1.1 o ho),
   fun id hid => (h2.2.1 id hid).trans (h1.2.1 id hid),
   le_trans h1.2.2 h2.2.2⟩

theorem Heap.lookup_set_ne (h : Heap) (j id : Nat) (v : Option (List Cell)) (a : Nat)
    (hne : id ≠ j) :
    Heap.lookup { bufs := h.bufs.set j v, avail := a } id = h.lookup id := by
  simp only [Heap.lookup, List.getElem?_set_ne (Ne.symm hne)]

theorem Heap.new_array_spec {h h1 : Heap} {n : Int} {p : Nat}
    (hn : h.new_array n = some (p, h1)) :
    p = h.bufs.length ∧ h1.bufs.length = h.bufs.length + 1 ∧
    ∀ id, id < h.bufs.length → h1.lookup id = h.lookup id := by
  unfold Heap.new_array at hn
  split at hn
  · cases hn
  · simp only [Option.some.injEq, Prod.mk.injEq] at hn
    obtain ⟨rfl, rfl⟩ := hn
    refine ⟨rfl, by simp, fun id hid => ?_⟩
    simp only [Heap.lookup, List.getElem?_append_left hid]

theorem Heap.lookup_lt {h : Heap} {id : Nat} {cells : List Cell}
    (hl : h.lookup id = some cells) : id < h.bufs.length := by
  unfold Heap.lookup at hl
  by_contra hn
  rw [List.getElem?_eq_none (by omega)] at hl
  cases hl

/-- The append made at length `short_max` on a value that lives in its own
array never returns normally: it ends in `bad_alloc` or in undefined
behaviour. -/
theorem append_inline_full_never_returns (w : World) (b : Nat) (s : String) (c : Int)
    (hs : w.obj b = some s) (hsz : s.sz = short_max) (hp : s.ptr = .inl b) (w1 : World) :
    String.append w b c ≠ .ok () w1 := by
  intro h
  unfold String.append at h
  split at h
  · next w2 hg =>
    -- the first half leaves `ptr` and `sz` as they were
    have hobj2 : ∃ u2, w2.obj b = some { ptr := .inl b, sz := short_max, u := u2 } := by
      unfold String.append_grow at hg
      simp only [hs, hsz, if_true] at hg
      split at hg
      · next q w3 he =>
        simp only [Outcome.ok.injEq, true_and] at hg
        subst hg
        have ho := expand_ok_objs he
        have hlt : b < w3.objs.length := by
          rw [ho]
          exact World.obj_lt hs
        exact ⟨Store.space (short_max + short_max + 2 - short_max - 2), by
          rw [World.obj_setObj, if_pos rfl, if_pos hlt, hp]⟩
      · cases hg
      · cases hg
    obtain ⟨u2, hobj2⟩ := hobj2
    unfold String.append_put at h
    simp only [hobj2] at h
    split at h
    · cases h
    · next w3 hp1 =>
      obtain ⟨s0, cells1, hs0, -, -, rfl⟩ := World.poke_inl hp1
      rw [hobj2] at hs0
      cases hs0
      rw [World.obj_setObj, if_pos rfl, if_pos (World.obj_lt hobj2)] at h
      dsimp only at h
      split at h
      · split at h
        · cases h
        · next w4 hp2 =>
          obtain ⟨-, -, -, -, hlt, -⟩ := World.poke_inl hp2
          unfold short_max at hlt
          omega
      · cases h
  · cases h
  · cases h

/-! ### Self-assignment, inline moves, allocation failure -/

/-- C14: copy assignment and move assignment of a value to itself return at
once and leave the whole state as it was: the members `ptr`, `sz` and `space`
of the value, every array, and the free store. -/
theorem self_assignment_is_noop (w : World) (a : Nat) :
    String.assign_copy w a a = .ok () w ∧ String.assign_move w a a = .ok () w ∧
    (String.assign_copy w a a).state.obj a = w.obj a ∧
    (String.assign_move w a a).state.obj a = w.obj a ∧
    (String.assign_copy w a a).state.heap = w.heap ∧
    (String.assign_move w a a).state.heap = w.heap := by
  have h1 : String.assign_copy w a a = .ok () w := by simp [String.assign_copy]
  have h2 : String.assign_move w a a = .ok () w := by simp [String.assign_move]
  rw [h1, h2]
  exact ⟨rfl, rfl, rfl, rfl, rfl, rfl⟩

/-- C18: for a source of at most `short_max` code units `move_from` and
`copy_from` are the same function of the state; into another object they
return, make the destination the source's members with `ptr` referring to
the destination's own array, and change nothing else. -/
theorem inline_move_is_copy (w : World) (this x : Nat) (xs : String)
    (hxs : w.obj x = some xs) (hsmall : xs.sz ≤ short_max) :
    String.move_from w this x = String.copy_from w this x ∧
    (∀ ts, w.obj this = some ts → this ≠ x →
      ∃ w1, String.move_from w this x = .ok () w1 ∧ String.copy_from w this x = .ok () w1 ∧
        w1.obj this = some { ptr := .inl this, sz := xs.sz, u := xs.u } ∧
        String.size w1 this = String.size w x ∧
        w1.view (.inl this) = some xs.u.cells ∧
        w1.obj x = some xs ∧ w1.heap = w.heap ∧
        ∀ o, o ≠ this → w1.obj o = w.obj o) := by
  refine ⟨?_, ?_⟩
  · unfold String.move_from String.copy_from
    cases ht : w.obj this with
    | none => simp
    | some ts => simp [hxs, hsmall]
  · intro ts hts hne
    have hm := move_from_inline hne hts hxs hsmall
    have hc : String.copy_from w this x =
        .ok () (w.setObj this { xs with ptr := .inl this }) := by
      simp [String.copy_from, hts, hxs, hsmall, hne, World.setObj_setObj]
    have hobj : (w.setObj this { xs with ptr := .inl this }).obj this =
        some { xs with ptr := .inl this } := by
      rw [World.obj_setObj, if_pos rfl, if_pos (World.obj_lt hts)]
    refine ⟨_, hm, hc, hobj, ?_, ?_, ?_, rfl, fun o ho => ?_⟩
    · simp only [String.size, hobj, hxs]
    · simp only [World.view, hobj]
    · rw [World.obj_setObj, if_neg hne, hxs]
    · rw [World.obj_setObj, if_neg (fun e => ho e.symm)]

theorem expand_thrown {w w1 : World} {p : Ptr} {n : Int} {e : Exn}
    (h : expand w p n = .thrown e w1) : e = .bad_alloc ∧ w1 = w := by
  unfold expand at h
  split at h
  · cases h; exact ⟨rfl, rfl⟩
  · dsimp only at h
    split at h
    · cases h
    · split at h
      · cases h
      · split at h <;> cases h

theorem append_grow_thrown {w w1 : World} {this : Nat} {e : Exn}
    (h : String.append_grow w this = .thrown e w1) : e = .bad_alloc ∧ w1 = w := by
  unfold String.append_grow at h
  split at h
  · cases h
  · split at h
    · dsimp only at h
      split at h
      · cases h
      · next e1 w2 he =>
        cases h
        exact expand_thrown he
      · cases h
    · split at h
      · split at h
        · cases h
        · split at h
          · dsimp only at h
            split at h
            · split at h
              · split at h
                · cases h
                · split at h <;> cases h
              · next e1 w2 he =>
                cases h
                exact expand_thrown he
              · cases h
            · cases h
          · split at h <;> cases h
      · cases h

theorem append_put_not_thrown {w w1 : World} {this : Nat} {c : Int} {e : Exn} :
    String.append_put w this c ≠ .thrown e w1 := by
  intro h
  unfold String.append_put at h
  split at h
  · cases h
  · split at h
    · cases h
    · split at h
      · cases h
      · split at h
        · dsimp only at h
          split at h <;> cases h
        · cases h

/-- C13: an append that ends in an exception ends in `bad_alloc` with the
state it started from, so the value keeps its `ptr`, length, `space` and
content; and the append does end so whenever the allocation it needs (at
length `short_max`, or beyond it with `space == 0`) is refused. -/
theorem append_is_atomic (w : World) (this : Nat) (c : Int) :
    (∀ e w1, String.append w this c = .thrown e w1 → e = .bad_alloc ∧ w1 = w) ∧
    (∀ s, w.obj this = some s →
      (s.sz = short_max ∨
        (short_max < s.sz ∧ s.u.getSpace = some 0 ∧ inInt (s.sz + s.sz + 2) = true)) →
      w.heap.new_array (s.sz + s.sz + 2) = none →
      String.append w this c = .thrown .bad_alloc w) := by
  refine ⟨?_, ?_⟩
  · intro e w1 h
    unfold String.append at h
    split at h
    · exact absurd h append_put_not_thrown
    · next e1 w2 hg =>
      cases h
      exact append_grow_thrown hg
    · cases h
  · intro s hs hcase hnew
    have he : expand w s.ptr (s.sz + s.sz + 2) = .thrown .bad_alloc w := by
      simp [expand, hnew]
    rcases hcase with h15 | ⟨hbig, hk, hin⟩
    · rw [h15] at he
      simp [String.append, String.append_grow, hs, h15, he]
    · have hne : s.sz ≠ short_max := by omega
      simp [String.append, String.append_grow, hs, hne, hbig, hk, hin, he]

/-- C18 at the values `"Test"` and `"abcdsda"`: moving the second into the
first is copying it. -/
theorem inline_move_is_copy_witness :
    wTest.obj 1 = some sAbcdsda ∧ sAbcdsda.sz ≤ short_max ∧
    String.move_from wTest 0 1 = String.copy_from wTest 0 1 :=
  ⟨by decide, by decide,
    (inline_move_is_copy wTest 0 1 sAbcdsda (by decide) (by decide)).1⟩

/-- C13 at a value of length 15 in a free store that cannot allocate 32 code
units: the append throws and the state is kept. -/
theorem append_is_atomic_witness :
    w15tight.obj 0 = some { ptr := .inl 0, sz := 15, u := .ch (lit 15) } ∧
    w15tight.heap.new_array (15 + 15 + 2) = none ∧
    String.append w15tight 0 98 = .thrown .bad_alloc w15tight :=
  ⟨by decide, by decide,
    (append_is_atomic w15tight 0 98).2 { ptr := .inl 0, sz := 15, u := .ch (lit 15) }
      (by decide) (Or.inl (by decide)) (by decide)⟩

/-! ### The source of a move out of the free store -/

/-- What `move_from` does with a source of more than `short_max` code units:
the destination gets the source's pointer, the source is reset. -/
theorem move_from_heap_both {w : World} {this x : Nat} {ts xs : String} {S : List Int}
    (hne : this ≠ x) (hts : w.obj this = some ts) (hxs : w.obj x = some xs)
    (hsz : xs.sz = S.length) (hbig : short_max < (S.length : Int))
    (hheap : short_max < xs.sz → ∃ k, xs.u = .space k) :
    ∃ w1, String.move_from w this x = .ok () w1 ∧
      String.size w1 x = some 0 ∧ String.c_str w1 x = some (.inl x) ∧
      String.index w1 x 0 = .ok 0 w1 ∧ String.capacity w1 x = some short_max ∧
      w1.Holds x [] ∧ String.c_str w1 this = some xs.ptr ∧ w1.heap = w.heap := by
  have hbig2 : short_max < xs.sz := by rw [hsz]; exact hbig
  obtain ⟨k, hu⟩ := hheap hbig2
  have hxl := World.obj_lt hxs
  have htl := World.obj_lt hts
  refine ⟨_, move_from_heap hne hts hxs hbig2 hu, ?_⟩
  have hobj : ((w.setObj this { ptr := xs.ptr, sz := xs.sz, u := .space k }).setObj x
      { ptr := .inl x, sz := 0, u := .ch ((List.replicate 16 none).set 0 (some 0)) }).obj x =
      some { ptr := .inl x, sz := 0, u := .ch ((List.replicate 16 none).set 0 (some 0)) } := by
    rw [World.obj_setObj, if_pos rfl, if_pos]
    simpa [World.setObj] using hxl
  have hobjt : ((w.setObj this { ptr := xs.ptr, sz := xs.sz, u := .space k }).setObj x
      { ptr := .inl x, sz := 0, u := .ch ((List.replicate 16 none).set 0 (some 0)) }).obj this =
      some { ptr := xs.ptr, sz := xs.sz, u := .space k } := by
    rw [World.obj_setObj, if_neg (fun e => hne e.symm), World.obj_setObj, if_pos rfl,
      if_pos htl]
  have hh := holds_nil_of_reset hobj (by simp)
  refine ⟨?_, ?_, ?_, ?_, hh, ?_, rfl⟩
  · simp only [String.size, hobj]
  · simp only [String.c_str, hobj]
  · exact index_of_holds _ x [] hh 0 (by simp)
  · simp only [String.capacity, hobj]
    rfl
  · simp only [String.c_str, hobjt]

/-- C17: a move (construction or assignment) into a distinct object from a
well-formed value of more than `short_max` code units leaves the source with
length 0, `ptr` referring to its own array, a zero at position 0 and capacity
`short_max`; the destination's `ptr` is the free-store array the source had,
and the source's `ptr` is another pointer. -/
theorem heap_move_resets_source (w : World) (this x : Nat) (ts xs : String) (S : List Int)
    (hne : this ≠ x) (hts : w.obj this = some ts) (hxs : w.obj x = some xs)
    (hx : w.Holds x S) (hbig : short_max < (S.length : Int)) :
    (∃ w1, String.ctor_move w this x = .ok () w1) ∧
    (∀ T, w.Holds this T → ∃ w1, String.assign_move w this x = .ok () w1) ∧
    ∀ w1, (String.ctor_move w this x = .ok () w1 ∨ String.assign_move w this x = .ok () w1) →
      String.size w1 x = some 0 ∧ String.c_str w1 x = some (.inl x) ∧
      String.index w1 x 0 = .ok 0 w1 ∧ String.capacity w1 x = some short_max ∧
      w1.Holds x [] ∧
      (∃ id, xs.ptr = .heap id ∧ String.c_str w1 this = some (.heap id)) ∧
      String.c_str w1 x ≠ String.c_str w1 this := by
  obtain ⟨xs1, hxs1, hsz, -, hheap⟩ := holds_members hx
  rw [hxs] at hxs1
  cases hxs1
  have hid : ∃ id, xs.ptr = .heap id := by
    obtain ⟨s, cells, hs, hsz1, -, -, -, hb⟩ := hx
    rw [hxs] at hs
    cases hs
    obtain ⟨id, k, hp, -⟩ := hb (by rw [hsz]; exact hbig)
    exact ⟨id, hp⟩
  have key : ∀ w2 : World, w2.objs = w.objs → ∀ w1, String.move_from w2 this x = .ok () w1 →
      String.size w1 x = some 0 ∧ String.c_str w1 x = some (.inl x) ∧
      String.index w1 x 0 = .ok 0 w1 ∧ String.capacity w1 x = some short_max ∧
      w1.Holds x [] ∧
      (∃ id, xs.ptr = .heap id ∧ String.c_str w1 this = some (.heap id)) ∧
      String.c_str w1 x ≠ String.c_str w1 this := by
    intro w2 ho w1 h
    have hts2 : w2.obj this = some ts := by rw [World.obj_of_objs_eq ho, hts]
    have hxs2 : w2.obj x = some xs := by rw [World.obj_of_objs_eq ho, hxs]
    obtain ⟨w3, h3, p1, p2, p3, p4, p5, p6, -⟩ :=
      move_from_heap_both hne hts2 hxs2 hsz hbig hheap
    rw [h] at h3
    cases h3
    obtain ⟨id, hp⟩ := hid
    refine ⟨p1, p2, p3, p4, p5, ⟨id, hp, by rw [p6, hp]⟩, ?_⟩
    rw [p2, p6, hp]
    intro e
    cases e
  refine ⟨?_, fun T hT => assign_move_returns hne hT hx, ?_⟩
  · obtain ⟨w1, h1, -⟩ := move_from_heap_both hne hts hxs hsz hbig hheap
    exact ⟨w1, h1⟩
  · intro w1 h
    rcases h with h | h
    · exact key w rfl w1 h
    · obtain ⟨w2, ho, hm, -⟩ := assign_move_ok hne hts h
      exact key w2 ho w1 hm

/-- C17 at the move assignment `b = std::move(a)` in `wPair`, `a` holding
sixteen code units in the allocation 0. -/
theorem heap_move_resets_source_witness :
    wPair.Holds 0 (List.replicate 16 97) ∧
    String.size (String.assign_move wPair 1 0).state 0 = some 0 ∧
    String.c_str (String.assign_move wPair 1 0).state 0 = some (.inl 0) ∧
    String.capacity (String.assign_move wPair 1 0).state 0 = some short_max ∧
    String.c_str (String.assign_move wPair 1 0).state 1 = some (.heap 0) :=
  have h := (heap_move_resets_source wPair 1 0
    { ptr := .inl 1, sz := 0, u := .ch ((List.replicate 16 none).set 0 (some 0)) }
    { ptr := .heap 0, sz := 16, u := .space 0 }
    (List.replicate 16 97) (by decide) (by decide) (by decide) wPair_holds (by decide)).2.2
    (String.assign_move wPair 1 0).state (Or.inr (by decide))
  ⟨wPair_holds, h.1, h.2.1, h.2.2.2.1, by decide⟩

/-! ### Equality -/

theorem holds_size {w : World} {a : Nat} {S : List Int} (h : w.Holds a S) :
    String.size w a = some (S.length : Int) := by
  obtain ⟨s, cells, hs, hsz, -⟩ := h
  simp only [String.size, hs, hsz]

theorem holds_length_lt {w : World} {a : Nat} {S : List Int} (h : w.Holds a S) :
    (S.length : Int) < INT_MAX := by
  obtain ⟨s, cells, hs, hsz, -, -, -, hb⟩ := h
  by_cases hbig : short_max < s.sz
  · obtain ⟨id, k, -, -, hk, hroom, hmax⟩ := hb hbig
    omega
  · unfold short_max at hbig
    unfold INT_MAX
    omega

theorem index_of_holds_lt {w : World} {a : Nat} {S : List Int} (h : w.Holds a S)
    (i : Nat) (hi : i < S.length) : String.index w a (i : Int) = .ok (S.get ⟨i, hi⟩) w := by
  have := index_of_holds w a S h i (by simp; omega)
  rw [this]
  congr 1
  simp [List.getElem_append_left hi]

/-- The loop of `operator==` on well-formed values compares the code units
that are left. -/
theorem eq_loop_spec {w : World} {a b : Nat} {S T : List Int}
    (ha : w.Holds a S) (hb : w.Holds b T) :
    ∀ (sfx tfx : List Int) (k fuel : Nat), S.drop k = sfx → T.drop k = tfx →
      sfx.length = tfx.length → k ≤ S.length → sfx.length < fuel →
      String.eq_loop w a b fuel (k : Int) = .ok (decide (sfx = tfx)) w := by
  intro sfx
  induction sfx with
  | nil =>
    intro tfx k fuel hS hT hlen hk hfuel
    have htfx : tfx = [] := List.length_eq_zero.1 hlen.symm
    subst htfx
    have hkn : k = S.length := by
      have := congrArg List.length hS
      simp at this
      omega
    match fuel, hfuel with
    | f + 1, _ =>
      simp only [String.eq_loop, holds_size ha, hkn, if_true, decide_True]
  | cons x s1 ih =>
    intro tfx k fuel hS hT hlen hk hfuel
    match tfx, hlen with
    | y :: t1, hlen =>
      have hkS : k < S.length := by
        have := congrArg List.length hS
        simp at this
        omega
      have hkT : k < T.length := by
        have := congrArg List.length hT
        simp at this
        omega
      have hx : S.get ⟨k, hkS⟩ = x := by
        have h0 : (S.drop k)[0]? = some x := by rw [hS]; simp
        rw [List.getElem?_drop] at h0
        simp only [Nat.add_zero] at h0
        rw [List.getElem?_eq_getElem hkS] at h0
        simpa using h0
      have hy : T.get ⟨k, hkT⟩ = y := by
        have h0 : (T.drop k)[0]? = some y := by rw [hT]; simp
        rw [List.getElem?_drop] at h0
        simp only [Nat.add_zero] at h0
        rw [List.getElem?_eq_getElem hkT] at h0
        simpa using h0
      have hS1 : S.drop (k + 1) = s1 := by
        have := congrArg (List.drop 1) hS
        simpa [List.drop_drop, Nat.add_comm] using this
      have hT1 : T.drop (k + 1) = t1 := by
        have := congrArg (List.drop 1) hT
        simpa [List.drop_drop, Nat.add_comm] using this
      have hmax := holds_length_lt ha
      match fuel, hfuel with
      | f + 1, hfuel =>
        have hne : ((k : Nat) : Int) ≠ (S.length : Int) := by omega
        have hin : inInt ((k : Int) + 1) = true := by
          rw [inInt_iff]
          unfold INT_MIN
          omega
        simp only [String.eq_loop, holds_size ha, hne, if_false,
          index_of_holds_lt ha k hkS, index_of_holds_lt hb k hkT, hx, hy, hin, if_true]
        by_cases hxy : x = y
        · subst hxy
          have hrec := ih t1 (k + 1) f hS1 hT1 (by simpa using hlen) (by omega)
            (by simp at hfuel; omega)
          simp only [ne_eq, not_true_eq_false, if_false]
          rw [show ((k : Int) + 1) = ((k + 1 : Nat) : Int) by push_cast; rfl, hrec]
          simp
        · simp [hxy]


/-- On well-formed values `operator==` returns whether the code units held
are the same. -/
theorem eq_of_holds {w : World} {a b : Nat} {S T : List Int}
    (ha : w.Holds a S) (hb : w.Holds b T) :
    String.eq w a b = .ok (decide (S = T)) w := by
  unfold String.eq
  simp only [holds_size ha, holds_size hb]
  by_cases hlen : S.length = T.length
  · have hcast : ¬ ((S.length : Int) ≠ (T.length : Int)) := by
      simp [hlen]
    rw [if_neg hcast]
    have := eq_loop_spec ha hb S T 0 ((S.length : Int).toNat + String.span w a + 1)
      rfl rfl hlen (Nat.zero_le _) (by simp; omega)
    simpa using this
  · have hcast : (S.length : Int) ≠ (T.length : Int) := by
      intro e
      exact hlen (by exact_mod_cast e)
    rw [if_pos hcast]
    have hne : S ≠ T := fun e => hlen (by rw [e])
    simp [hne]

/-- C12: on well-formed values `a == b` returns, with the state unchanged,
whether the code units held are the same, whatever the storage of either
operand; it is true exactly when the lengths are equal and `a[i]` and `b[i]`
are the same code unit at every position below the length; and `a != b`
returns the negation. -/
theorem eq_compares_content (w : World) (a b : Nat) (S T : List Int)
    (ha : w.Holds a S) (hb : w.Holds b T) :
    String.eq w a b = .ok (decide (S = T)) w ∧
    String.ne w a b = .ok (!decide (S = T)) w ∧
    (String.eq w a b = .ok true w ↔
      String.size w a = String.size w b ∧
      ∀ i : Nat, i < S.length →
        ∃ c, String.index w a (i : Int) = .ok c w ∧ String.index w b (i : Int) = .ok c w) := by
  have he := eq_of_holds ha hb
  refine ⟨he, by simp only [String.ne, he], ?_⟩
  rw [he]
  constructor
  · intro h
    have hST : S = T := by simpa using h
    subst hST
    refine ⟨by rw [holds_size ha, holds_size hb], fun i hi => ?_⟩
    exact ⟨S.get ⟨i, hi⟩, index_of_holds_lt ha i hi, index_of_holds_lt hb i hi⟩
  · rintro ⟨hsize, hall⟩
    rw [holds_size ha, holds_size hb] at hsize
    have hlen : S.length = T.length := by
      simp only [Option.some.injEq] at hsize
      exact_mod_cast hsize
    have hST : S = T := by
      apply List.ext_getElem hlen
      intro i h1 h2
      obtain ⟨c, hc1, hc2⟩ := hall i h1
      rw [index_of_holds_lt ha i h1] at hc1
      rw [index_of_holds_lt hb i h2] at hc2
      simp only [Outcome.ok.injEq, and_true] at hc1 hc2
      simpa using hc1.trans hc2.symm
    simp [hST]

/-- The values `"Test"` and `"abcdsda"` of `wTest` are well formed. -/
theorem wTest_holds :
    wTest.Holds 0 [84, 101, 115, 116] ∧ wTest.Holds 1 [97, 98, 99, 100, 115, 100, 97] :=
  ⟨⟨_, _, rfl, by decide, rfl, ⟨List.replicate 11 none, by decide⟩, fun _ => rfl,
      fun h => absurd h (by decide)⟩,
   ⟨_, _, rfl, by decide, rfl, ⟨List.replicate 8 none, by decide⟩, fun _ => rfl,
      fun h => absurd h (by decide)⟩⟩

/-- C12 at the values `"Test"` and `"abcdsda"`: they are not equal, and each
equals itself. -/
theorem eq_compares_content_witness :
    wTest.Holds 0 [84, 101, 115, 116] ∧ wTest.Holds 1 [97, 98, 99, 100, 115, 100, 97] ∧
    String.eq wTest 0 1 = .ok false wTest ∧ String.ne wTest 0 1 = .ok true wTest ∧
    String.eq wTest 1 1 = .ok true wTest :=
  ⟨wTest_holds.1, wTest_holds.2,
    (eq_compares_content wTest 0 1 _ _ wTest_holds.1 wTest_holds.2).1,
    (eq_compares_content wTest 0 1 _ _ wTest_holds.1 wTest_holds.2).2.1,
    (eq_compares_content wTest 1 1 _ _ wTest_holds.2 wTest_holds.2).1⟩

/-! ### Copies out of the free store -/

/-- The zero-terminated sequence read from an array that starts with `S` and
a zero is `S` up to its first zero. -/
theorem cstr_of_prefix (S : List Int) (t : List Cell) :
    cstr ((S ++ [0]).map some ++ t) = some (S.takeWhile (fun c => c ≠ 0)) := by
  induction S with
  | nil => simp [cstr]
  | cons x S ih =>
    by_cases hx : x = 0
    · subst hx
      simp [cstr]
    · show cstr (some x :: (List.map some (S ++ [0]) ++ t)) =
        some (List.takeWhile (fun c => decide (c ≠ 0)) (x :: S))
      rw [cstr, if_neg hx, ih]
      simp [List.takeWhile_cons, hx]

theorem cstr_of_holds_cells {S : List Int} {cells : List Cell}
    (hpre : (S ++ [0]).map some <+: cells) :
    ∃ chars, cstr cells = some chars ∧ chars.length ≤ S.length := by
  obtain ⟨t, rfl⟩ := hpre
  exact ⟨_, cstr_of_prefix S t, (List.takeWhile_prefix _).length_le⟩

theorem Heap.lookup_new_array {h h1 : Heap} {n : Int} {p : Nat}
    (hn : h.new_array n = some (p, h1)) :
    h1.lookup p = some (List.replicate n.toNat none) ∧ h.lookup p = none := by
  unfold Heap.new_array at hn
  split at hn
  · cases hn
  · simp only [Option.some.injEq, Prod.mk.injEq] at hn
    obtain ⟨rfl, rfl⟩ := hn
    simp [Heap.lookup]

theorem Heap.new_array_ok (h : Heap) (n : Int) (h0 : 0 ≤ n) (hn : n ≤ (h.avail : Int)) :
    ∃ h1, h.new_array n = some (h.bufs.length, h1) := by
  unfold Heap.new_array
  rw [if_neg (by omega)]
  exact ⟨_, rfl⟩

/-- The call `expand(ptr, n)` returns when the allocation is granted and the
source holds a zero-terminated sequence shorter than `n`: the new allocation
is numbered after all others, has `n` cells and starts with the sequence and
its zero; nothing else changes. -/
theorem expand_ok {w : World} {ptr : Ptr} {n : Int} {cells : List Cell} {chars : List Int}
    (h0 : 0 ≤ n) (hn : n ≤ (w.heap.avail : Int))
    (hv : w.view ptr = some cells) (hc : cstr cells = some chars)
    (hlen : (chars.length : Int) < n) :
    ∃ w1 cells1, expand w ptr n = .ok w.heap.bufs.length w1 ∧ w1.objs = w.objs ∧
      w1.heap.lookup w.heap.bufs.length = some cells1 ∧ (cells1.length : Int) = n ∧
      (chars ++ [0]).map some <+: cells1 ∧
      w.heap.lookup w.heap.bufs.length = none ∧
      w1.heap.bufs.length = w.heap.bufs.length + 1 ∧
      ∀ id, id < w.heap.bufs.length → w1.heap.lookup id = w.heap.lookup id := by
  obtain ⟨h1, hnew⟩ := Heap.new_array_ok w.heap n h0 hn
  obtain ⟨-, hlen1, hlook⟩ := Heap.new_array_spec hnew
  obtain ⟨hp1, hp0⟩ := Heap.lookup_new_array hnew
  have hv1 : World.view { w with heap := h1 } ptr = some cells := by
    cases ptr with
    | inl o => exact hv
    | heap id =>
      simp only [World.view] at hv ⊢
      rw [hlook id (Heap.lookup_lt hv), hv]
  have hfit : chars.length + 1 ≤ (List.replicate n.toNat (none : Cell)).length := by
    simp
    omega
  refine ⟨World.setView { w with heap := h1 } (.heap w.heap.bufs.length)
      ((chars ++ [0]).map some ++ (List.replicate n.toNat none).drop (chars.length + 1)),
    (chars ++ [0]).map some ++ (List.replicate n.toNat none).drop (chars.length + 1),
    ?_, ?_, ?_, ?_, ⟨_, rfl⟩, hp0, ?_, ?_⟩
  · simp only [expand, hnew, hv1, hc]
    simp only [World.strcpy, World.view, hp1, StrImpl.strcpy, hfit, if_true]
  · rfl
  · simp only [World.setView, Heap.lookup]
    rw [List.getElem?_set_self (by omega)]
  · simp
    omega
  · simpa [World.setView] using hlen1
  · intro id hid
    simp only [World.setView]
    rw [Heap.lookup_set_ne _ _ _ _ _ (by omega)]
    exact hlook id hid


/-- What `copy_from` does with a well-formed source of more than `short_max`
code units when the allocation is granted. -/
theorem copy_from_heap_ok {w : World} {this x : Nat} {ts xs : String} {S : List Int}
    (hne : this ≠ x) (hts : w.obj this = some ts) (hxs : w.obj x = some xs)
    (hx : w.Holds x S) (hbig : short_max < xs.sz)
    (hmem : xs.sz + 1 ≤ (w.heap.avail : Int)) :
    ∃ w1 cells, String.copy_from w this x = .ok () w1 ∧
      w1.obj this = some { ptr := .heap w.heap.bufs.length, sz := xs.sz, u := .space 0 } ∧
      w.heap.lookup w.heap.bufs.length = none ∧
      w1.heap.lookup w.heap.bufs.length = some cells ∧ (cells.length : Int) = xs.sz + 1 ∧
      String.size w1 this = some xs.sz ∧ String.capacity w1 this = some xs.sz ∧
      w1.obj x = some xs ∧
      (∀ o, o ≠ this → w1.obj o = w.obj o) ∧
      w1.heap.bufs.length = w.heap.bufs.length + 1 ∧
      ∀ id, id < w.heap.bufs.length → w1.heap.lookup id = w.heap.lookup id := by
  obtain ⟨s, cells, hs, hsz, hv, hpre, -, hb⟩ := hx
  rw [hxs] at hs
  cases hs
  obtain ⟨id, k, hp, hu, hk0, hroom, hmax⟩ := hb hbig
  obtain ⟨chars, hc, hcl⟩ := cstr_of_holds_cells hpre
  have hin : inInt (xs.sz + 1) = true := by
    rw [inInt_iff]
    unfold INT_MIN short_max at *
    omega
  obtain ⟨w2, cells1, he, ho, hl1, hlen1, -, hl0, hlen2, hlook⟩ :=
    @expand_ok w xs.ptr (xs.sz + 1) cells chars (by unfold short_max at hbig; omega)
      hmem hv hc (by omega)
  have htl : this < w2.objs.length := by rw [ho]; exact World.obj_lt hts
  have hobj : (w2.setObj this { ptr := .heap w.heap.bufs.length, sz := xs.sz, u := .space 0 }).obj
      this = some { ptr := .heap w.heap.bufs.length, sz := xs.sz, u := .space 0 } := by
    rw [World.obj_setObj, if_pos rfl, if_pos htl]
  have hin2 : inInt xs.sz = true := by
    rw [inInt_iff]
    unfold INT_MIN short_max at *
    omega
  refine ⟨_, cells1, ?_, hobj, hl0, hl1, hlen1, ?_, ?_, ?_, ?_, hlen2, hlook⟩
  · simp only [String.copy_from, hts, hxs, not_le.2 hbig, if_false, hin, if_true, he]
  · simp only [String.size, hobj]
  · simp only [String.capacity, hobj, not_le.2 hbig, if_false, Store.getSpace, hin2, if_true,
      Int.add_zero]
  · rw [World.obj_setObj, if_neg hne, World.obj_of_objs_eq ho, hxs]
  · intro o hno
    rw [World.obj_setObj, if_neg (fun e => hno e.symm), World.obj_of_objs_eq ho]

/-- C19: copying (construction or assignment) a well-formed value of more
than `short_max` code units into another object, when the allocation is
granted, returns; the copy's `ptr` is a new allocation of exactly
`size() + 1` code units, its `space` is 0 and its capacity is the source's
length, whatever `space` the source has; the source object is unchanged. -/
theorem heap_copy_drops_spare (w : World) (this x : Nat) (ts xs : String) (S : List Int)
    (hne : this ≠ x) (hts : w.obj this = some ts) (hxs : w.obj x = some xs)
    (hx : w.Holds x S) (hbig : short_max < xs.sz)
    (hmem : xs.sz + 1 ≤ (w.heap.avail : Int)) :
    (∃ w1 cells, String.ctor_copy w this x = .ok () w1 ∧
      w1.obj this = some { ptr := .heap w.heap.bufs.length, sz := xs.sz, u := .space 0 } ∧
      w.heap.lookup w.heap.bufs.length = none ∧
      w1.heap.lookup w.heap.bufs.length = some cells ∧ (cells.length : Int) = xs.sz + 1 ∧
      String.size w1 this = String.size w x ∧ String.capacity w1 this = some xs.sz ∧
      w1.obj x = some xs) ∧
    (∀ T, w.Holds this T → ∃ w1 cells, String.assign_copy w this x = .ok () w1 ∧
      w1.obj this = some { ptr := .heap w.heap.bufs.length, sz := xs.sz, u := .space 0 } ∧
      w.heap.lookup w.heap.bufs.length = none ∧
      w1.heap.lookup w.heap.bufs.length = some cells ∧ (cells.length : Int) = xs.sz + 1 ∧
      String.size w1 this = String.size w x ∧ String.capacity w1 this = some xs.sz ∧
      w1.obj x = some xs) := by
  obtain ⟨w1, cells, hc, p1, p2, p3, p4, p5, p6, p7, -, hlen, hlook⟩ :=
    copy_from_heap_ok hne hts hxs hx hbig hmem
  have hsx : String.size w x = some xs.sz := by simp only [String.size, hxs]
  refine ⟨⟨w1, cells, hc, p1, p2, p3, p4, p5.trans hsx.symm, p6, p7⟩, ?_⟩
  intro T hT
  obtain ⟨s, tcells, hs, -, htv, -, -, htb⟩ := hT
  rw [hts] at hs
  cases hs
  simp only [String.assign_copy, hne, if_false, hts, hc]
  by_cases htbig : short_max < ts.sz
  · obtain ⟨j, k, hp, -⟩ := htb htbig
    rw [hp] at htv
    simp only [World.view] at htv
    have hj := Heap.lookup_lt htv
    have hj1 : w1.heap.lookup j = some tcells := by rw [hlook j hj, htv]
    simp only [htbig, if_true, hp, World.delete_array, Heap.delete_array, hj1]
    refine ⟨_, cells, rfl, p1, p2, ?_, p4, ?_, ?_, p7⟩
    · show Heap.lookup _ _ = _
      rw [Heap.lookup_set_ne _ _ _ _ _ (by omega)]
      exact p3
    · exact p5.trans hsx.symm
    · exact p6
  · simp only [htbig, if_false, World.delete_array]
    exact ⟨w1, cells, rfl, p1, p2, p3, p4, p5.trans hsx.symm, p6, p7⟩

/-- C19 at the copy assignment `b = a` in `wPair`, `a` holding sixteen code
units: `b` gets the new allocation 1 of 17 code units, `space` 0 and
capacity 16. -/
theorem heap_copy_drops_spare_witness :
    wPair.Holds 0 (List.replicate 16 97) ∧ wPair.Holds 1 [] ∧
    ∃ w1 cells, String.assign_copy wPair 1 0 = .ok () w1 ∧
      w1.obj 1 = some { ptr := .heap 1, sz := 16, u := .space 0 } ∧
      wPair.heap.lookup 1 = none ∧
      w1.heap.lookup 1 = some cells ∧ (cells.length : Int) = 16 + 1 ∧
      String.size w1 1 = String.size wPair 0 ∧ String.capacity w1 1 = some 16 ∧
      w1.obj 0 = some { ptr := .heap 0, sz := 16, u := .space 0 } :=
  have hb : wPair.Holds 1 [] :=
    ⟨_, _, rfl, by decide, rfl, ⟨List.replicate 15 none, by decide⟩, fun _ => rfl,
      fun h => absurd h (by decide)⟩
  ⟨wPair_holds, hb,
    (heap_copy_drops_spare wPair 1 0
      { ptr := .inl 1, sz := 0, u := .ch ((List.replicate 16 none).set 0 (some 0)) }
      { ptr := .heap 0, sz := 16, u := .space 0 } (List.replicate 16 97)
      (by decide) (by decide) (by decide) wPair_holds (by decide) (by decide)).2 [] hb⟩

/-! ### The transition at length `short_max` in the helper functions -/

/-- C11 (the code departs from the claim): `String{"Test"} + String{"abcdsda"}`
returns a value of length 11 that lives in its own array and holds
`Testabcdsda`, the operands being unchanged; the sum of two values of ten
code units does not return: the append made at length 15 ends with `ptr`
still referring to the array `ch` at length 16. -/
theorem concat_stops_at_short_max :
    String.concat wTest raw0 0 1 = .ok 2 wTestSum ∧
    String.size wTestSum 2 = some 11 ∧
    String.c_str wTestSum 2 = some (.inl 2) ∧
    wTestSum.view (.inl 2) =
      some (str [84, 101, 115, 116, 97, 98, 99, 100, 115, 100, 97] ++ List.replicate 4 none) ∧
    wTestSum.obj 0 = wTest.obj 0 ∧ wTestSum.obj 1 = wTest.obj 1 ∧
    String.size wTen 0 = some 10 ∧ String.size wTen 1 = some 10 ∧
    String.concat wTen raw0 0 1 = .fault wTenSum ∧
    String.size wTenSum 2 = some 16 ∧
    String.c_str wTenSum 2 = some (.inl 2) ∧
    (wTenSum.view (.inl 2)).map List.length = some 16 := by
  decide

/-- C20 (the code departs from the claim): at length 15 the call
`expand(ptr, 32)` copies a sequence of 15 code units, within the 32 of the
new array; but `ptr` keeps referring to the array `ch` of 16 code units, so
the store at position `sz` = 15 is inside it and the store at position
`sz + 1` = 16 is not. -/
theorem terminator_store_leaves_the_array :
    (w15.view (.inl 0)).bind cstr = some (List.replicate 15 97) ∧
    String.append_grow w15 0 = .ok () w15grown ∧
    String.c_str w15grown 0 = some (.inl 0) ∧
    (w15grown.view (.inl 0)).map List.length = some 16 ∧
    w15grown.poke (.inl 0) 15 98 = some w15stored ∧
    (w15stored.view (.inl 0)).map List.length = some 16 ∧
    w15stored.poke (.inl 0) (15 + 1) 0 = none := by
  decide

/-! ### Appends to a value in its own array -/

/-- An append that returns on a value living in its own array below
`short_max` code units leaves it in its own array, one code unit longer. -/
theorem append_inline_step {w w1 : World} {b : Nat} {s : String} {c : Int}
    (hs : w.obj b = some s) (hp : s.ptr = .inl b) (hlt : s.sz < short_max)
    (h : String.append w b c = .ok () w1) :
    ∃ s1, w1.obj b = some s1 ∧ s1.ptr = .inl b ∧ s1.sz = s.sz + 1 := by
  have hne : s.sz ≠ short_max := by omega
  have hnb : ¬ short_max < s.sz := by omega
  have hg : String.append_grow w b = .ok () w := by
    simp only [String.append_grow, hs, hne, if_false, hnb]
  simp only [String.append, hg, String.append_put, hs, hp] at h
  split at h
  · cases h
  · next w2 hp1 =>
    obtain ⟨s0, cells1, hs0, -, -, rfl⟩ := World.poke_inl hp1
    rw [hs] at hs0
    cases hs0
    rw [World.obj_setObj, if_pos rfl, if_pos (World.obj_lt hs)] at h
    dsimp only at h
    split at h
    · split at h
      · cases h
      · next w4 hp2 =>
        cases h
        rw [World.setObj_setObj, hp] at hp2
        obtain ⟨s5, cells2, hs5, -, -, rfl⟩ := World.poke_inl hp2
        rw [World.obj_setObj, if_pos rfl, if_pos (World.obj_lt hs)] at hs5
        cases hs5
        refine ⟨{ ptr := .inl b, sz := s.sz + 1, u := .ch cells2 }, ?_, rfl, rfl⟩
        rw [World.setObj_setObj, World.obj_setObj, if_pos rfl, if_pos (World.obj_lt hs)]
    · cases h

/-- A run of appends on a value living in its own array does not return when
it is longer than the room left up to `short_max` code units. -/
theorem appends_past_room_never_return (b : Nat) (cs : List Int) :
    ∀ (w : World) (s : String), w.obj b = some s → s.ptr = .inl b → s.sz ≤ short_max →
      short_max - s.sz < (cs.length : Int) → (w.run (appends b cs)).done = none := by
  induction cs with
  | nil =>
    intro w s _ _ hle hlen
    simp at hlen
    omega
  | cons c cs ih =>
    intro w s hs hp hle hlen
    simp only [appends, List.map_cons, World.run, World.step]
    cases ha : String.append w b c with
    | ok u w1 =>
      by_cases h15 : s.sz = short_max
      · exact absurd ha (append_inline_full_never_returns w b s c hs h15 hp w1)
      · obtain ⟨s1, hs1, hp1, hsz1⟩ := append_inline_step hs hp (by omega) ha
        exact ih w1 s1 hs1 hp1 (by omega) (by simp at hlen; omega)
    | thrown e w1 => rfl
    | fault w1 => rfl

/-- No run of sixteen or more appends to an empty value returns. -/
theorem appends_past_short_max_never_return (avail : Nat) (raw : String) (cs : List Int)
    (hlen : 16 ≤ cs.length) :
    ((World.init avail).run (Op.ctor_default raw :: appends 0 cs)).done = none := by
  have hstep : (World.init avail).step (Op.ctor_default raw) =
      .ok () (((World.init avail).fresh raw).setObj 0
        { ptr := .inl 0, sz := 0, u := .ch (raw.u.cells.set 0 (some 0)) }) := by
    simp [World.step, String.ctor_default, World.init, World.fresh, World.obj]
  simp only [World.run, hstep]
  refine appends_past_room_never_return 0 cs _
    { ptr := .inl 0, sz := 0, u := .ch (raw.u.cells.set 0 (some 0)) } ?_ rfl (by show (0 : Int) ≤ short_max; decide) ?_
  · simp [World.obj, World.setObj, World.fresh, World.init]
  · show short_max - 0 < (cs.length : Int)
    unfold short_max
    omega

/-! ### The appends that work -/

/-- Storing a code unit and a zero after a known beginning of an array. -/
theorem put_keeps_front (S : List Int) (c : Int) (cells : List Cell)
    (h : S.map some <+: cells) (hlen : S.length + 1 < cells.length) :
    (S ++ [c] ++ [0]).map some <+:
      (cells.set S.length (some c)).set (S.length + 1) (some 0) := by
  obtain ⟨t, rfl⟩ := h
  match t, hlen with
  | [], hlen => simp at hlen
  | [a], hlen => simp at hlen
  | a :: b :: t1, _ =>
    refine ⟨t1, ?_⟩
    simp [List.set_append]

theorem World.poke_heap_ok {w : World} {id : Nat} {cells : List Cell} {n c : Int}
    (hl : w.heap.lookup id = some cells) (h0 : 0 ≤ n) (hn : n < (cells.length : Int)) :
    ∃ w1, w.poke (.heap id) n c = some w1 ∧ w1.objs = w.objs ∧
      w1.heap.lookup id = some (cells.set n.toNat (some c)) ∧
      w1.heap.bufs.length = w.heap.bufs.length ∧
      ∀ j, j ≠ id → w1.heap.lookup j = w.heap.lookup j := by
  refine ⟨w.setView (.heap id) (cells.set n.toNat (some c)), ?_, rfl, ?_, ?_, ?_⟩
  · simp only [World.poke, World.view, hl, writeAt, h0, hn, and_self, if_true]
  · simp only [World.setView, Heap.lookup]
    rw [List.getElem?_set_self (Heap.lookup_lt hl)]
  · simp [World.setView]
  · intro j hj
    exact Heap.lookup_set_ne w.heap id j _ _ hj

theorem Store.cells_ch {cells : List Cell} (h : cells.length = 16) :
    (Store.ch cells).cells = cells := by
  simp only [Store.cells]
  rw [List.take_append_of_le_length (by omega), List.take_of_length_le (by omega)]

theorem World.poke_inl_ok {w : World} {b : Nat} {s : String} {n c : Int}
    (hs : w.obj b = some s) (h0 : 0 ≤ n) (hn : n < 16) :
    w.poke (.inl b) n c =
      some (w.setObj b { s with u := .ch (s.u.cells.set n.toNat (some c)) }) := by
  have hlen : n < (s.u.cells.length : Int) := by rw [Store.cells_length]; exact hn
  simp only [World.poke, World.view, hs, writeAt, h0, hlen, and_self, if_true, World.setView]


theorem holds_cells_front {S : List Int} {cells : List Cell}
    (h : (S ++ [0]).map some <+: cells) :
    S.map some <+: cells ∧ S.length + 1 ≤ cells.length := by
  obtain ⟨t, rfl⟩ := h
  refine ⟨⟨some 0 :: t, by simp⟩, by simp⟩

/-- The second half of an append on a value living in its own array with
room for one more code unit and the terminator. -/
theorem append_put_inl_ok {w : World} {b : Nat} {s : String} {c : Int}
    (hs : w.obj b = some s) (hp : s.ptr = .inl b) (h0 : 0 ≤ s.sz)
    (hroom : s.sz + 1 < 16) (cells2 : List Cell)
    (hc2 : cells2 = (s.u.cells.set s.sz.toNat (some c)).set (s.sz + 1).toNat (some 0)) :
    String.append_put w b c =
      .ok () (w.setObj b { ptr := .inl b, sz := s.sz + 1, u := .ch cells2 }) := by
  subst hc2
  have hbl := World.obj_lt hs
  have hin : inInt (s.sz + 1) = true := by
    rw [inInt_iff]
    unfold INT_MIN INT_MAX
    omega
  have hlen1 : (s.u.cells.set s.sz.toNat (some c)).length = 16 := by
    rw [List.length_set, Store.cells_length]
  have hobj1 : (w.setObj b { s with u := .ch (s.u.cells.set s.sz.toNat (some c)) }).obj b =
      some { s with u := .ch (s.u.cells.set s.sz.toNat (some c)) } := by
    rw [World.obj_setObj, if_pos rfl, if_pos hbl]
  obtain ⟨cells1, hc1⟩ : ∃ cells1 : List Cell, cells1 = s.u.cells.set s.sz.toNat (some c) :=
    ⟨_, rfl⟩
  rw [← hc1] at hlen1 hobj1 ⊢
  have hobj2 : (w.setObj b { ptr := s.ptr, sz := s.sz + 1, u := .ch cells1 }).obj b =
      some { ptr := s.ptr, sz := s.sz + 1, u := .ch cells1 } := by
    rw [World.obj_setObj, if_pos rfl, if_pos hbl]
  have hpk2 := World.poke_inl_ok (c := 0) hobj2 (by omega : 0 ≤ s.sz + 1) hroom
  simp only [Store.cells_ch hlen1, World.setObj_setObj] at hpk2
  simp only [String.append_put, hs, hp, World.poke_inl_ok hs h0 (by omega : s.sz < 16), ← hc1,
    hobj1, hin, if_true, World.setObj_setObj]
  rw [hp] at hpk2 hobj1
  simp only [hobj1, hin, if_true, hpk2]

/-- The append on a well-formed value of fewer than `short_max` code units
returns, allocates nothing and makes it the well-formed value with the code
unit added; the capacity stays `short_max`. -/
theorem append_inline_ok {w : World} {b : Nat} {S : List Int} (c : Int)
    (hb : w.Holds b S) (hlt : (S.length : Int) < short_max) :
    ∃ w1, String.append w b c = .ok () w1 ∧ w1.Holds b (S ++ [c]) ∧
      String.capacity w b = some short_max ∧ String.capacity w1 b = some short_max ∧
      w1.heap = w.heap ∧ ∀ o, o ≠ b → w1.obj o = w.obj o := by
  obtain ⟨s, cells, hs, hsz, hv, hpre, hi, -⟩ := hb
  have hp := hi (by omega)
  rw [hp] at hv
  simp only [World.view, hs, Option.some.injEq] at hv
  have hbl := World.obj_lt hs
  have hne : s.sz ≠ short_max := by omega
  have hnb : ¬ short_max < s.sz := by omega
  have hg : String.append_grow w b = .ok () w := by
    simp only [String.append_grow, hs, hne, if_false, hnb]
  obtain ⟨cells2, hc2⟩ : ∃ cells2 : List Cell,
      cells2 = (s.u.cells.set s.sz.toNat (some c)).set (s.sz + 1).toNat (some 0) := ⟨_, rfl⟩
  have hput := append_put_inl_ok (c := c) hs hp (by omega) (by unfold short_max at hlt; omega)
    cells2 hc2
  have hobj : (w.setObj b { ptr := .inl b, sz := s.sz + 1, u := .ch cells2 }).obj b =
      some { ptr := .inl b, sz := s.sz + 1, u := .ch cells2 } := by
    rw [World.obj_setObj, if_pos rfl, if_pos hbl]
  have hlen2 : cells2.length = 16 := by
    rw [hc2, List.length_set, List.length_set, Store.cells_length]
  obtain ⟨hpre1, -⟩ := holds_cells_front hpre
  have hn1 : s.sz.toNat = S.length := by omega
  have hn2 : (s.sz + 1).toNat = S.length + 1 := by omega
  refine ⟨w.setObj b { ptr := .inl b, sz := s.sz + 1, u := .ch cells2 },
    by simp only [String.append, hg, hput], ?_, ?_, ?_, rfl, fun o ho => ?_⟩
  · refine ⟨_, cells2, hobj, by simp; omega, ?_, ?_, fun _ => rfl, fun h => ?_⟩
    · simp only [World.view, hobj, Store.cells_ch hlen2]
    · rw [hc2, hn1, hn2, hv]
      exact put_keeps_front S c cells hpre1 (by
        rw [← hv, Store.cells_length]
        unfold short_max at hlt
        omega)
    · dsimp only at h
      omega
  · simp only [String.capacity, hs, show s.sz ≤ short_max by omega, if_true]
  · simp only [String.capacity, hobj, show s.sz + 1 ≤ short_max by omega, if_true]
  · rw [World.obj_setObj, if_neg (fun e => ho e.symm)]


/-- The second half of an append on a value whose `ptr` refers to a
free-store array with room for one more code unit and the terminator. -/
theorem append_put_heap_ok {w : World} {b id : Nat} {s : String} {cells : List Cell} (c : Int)
    (hs : w.obj b = some s) (hp : s.ptr = .heap id) (hl : w.heap.lookup id = some cells)
    (h0 : 0 ≤ s.sz) (hroom : s.sz + 1 < (cells.length : Int)) (hmax : s.sz + 1 ≤ INT_MAX) :
    ∃ w1, String.append_put w b c = .ok () w1 ∧
      w1.obj b = some { s with sz := s.sz + 1 } ∧
      w1.heap.lookup id =
        some ((cells.set s.sz.toNat (some c)).set (s.sz + 1).toNat (some 0)) ∧
      w1.heap.bufs.length = w.heap.bufs.length ∧
      (∀ o, o ≠ b → w1.obj o = w.obj o) ∧
      ∀ j, j ≠ id → w1.heap.lookup j = w.heap.lookup j := by
  have hbl := World.obj_lt hs
  have hin : inInt (s.sz + 1) = true := by
    rw [inInt_iff]
    unfold INT_MIN
    omega
  obtain ⟨w2, hpk1, ho2, hl2, hlen2, hoth2⟩ :=
    World.poke_heap_ok (c := c) hl h0 (by omega : s.sz < (cells.length : Int))
  have hobj2 : w2.obj b = some s := by rw [World.obj_of_objs_eq ho2, hs]
  have hl3 : (w2.setObj b { s with sz := s.sz + 1 }).heap.lookup id =
      some (cells.set s.sz.toNat (some c)) := hl2
  obtain ⟨w4, hpk2, ho4, hl4, hlen4, hoth4⟩ :=
    World.poke_heap_ok (c := 0) hl3 (by omega : 0 ≤ s.sz + 1)
      (by rw [List.length_set]; exact hroom)
  refine ⟨w4, ?_, ?_, hl4, ?_, fun o ho => ?_, fun j hj => ?_⟩
  · rw [hp] at hpk2
    simp only [String.append_put, hs, hp, hpk1, hobj2, hin, if_true, hpk2]
  · rw [World.obj_of_objs_eq ho4, World.obj_setObj, if_pos rfl,
      if_pos (by rw [ho2]; exact hbl)]
  · rw [hlen4]
    exact hlen2
  · rw [World.obj_of_objs_eq ho4, World.obj_setObj, if_neg (fun e => ho e.symm),
      World.obj_of_objs_eq ho2]
  · rw [hoth4 j hj]
    exact hoth2 j hj

/-- The append on a well-formed value in the free store with `space > 0`
returns, allocates nothing, takes one from `space`, keeps the capacity and
makes it the well-formed value with the code unit added. -/
theorem append_heap_spare_ok {w : World} {b : Nat} {s : String} {S : List Int} {k : Int}
    (c : Int) (hb : w.Holds b S) (hs : w.obj b = some s) (hbig : short_max < s.sz)
    (hu : s.u = .space k) (hk : 0 < k) :
    ∃ w1, String.append w b c = .ok () w1 ∧
      w1.obj b = some { ptr := s.ptr, sz := s.sz + 1, u := .space (k - 1) } ∧
      w1.heap.bufs.length = w.heap.bufs.length ∧
      String.capacity w1 b = String.capacity w b ∧
      String.capacity w b = some (s.sz + k) ∧
      w1.Holds b (S ++ [c]) ∧ ∀ o, o ≠ b → w1.obj o = w.obj o := by
  obtain ⟨s0, cells, hs0, hsz, hv, hpre, -, hh⟩ := hb
  rw [hs] at hs0
  cases hs0
  obtain ⟨id, k0, hp, hu0, hk0, hroom, hmax⟩ := hh hbig
  rw [hu] at hu0
  cases hu0
  rw [hp] at hv
  simp only [World.view] at hv
  have hbl := World.obj_lt hs
  have hne : s.sz ≠ short_max := by omega
  have hkne : k ≠ 0 := by omega
  have hink : inInt (k - 1) = true := by
    rw [inInt_iff]
    unfold INT_MIN short_max at *
    omega
  have hg : String.append_grow w b = .ok () (w.setObj b { s with u := .space (k - 1) }) := by
    simp only [String.append_grow, hs, hne, if_false, hbig, if_true, hu, Store.getSpace, hkne,
      hink]
  have hobj1 : (w.setObj b { s with u := .space (k - 1) }).obj b =
      some { s with u := .space (k - 1) } := by
    rw [World.obj_setObj, if_pos rfl, if_pos hbl]
  obtain ⟨w1, hput, ho1, hl1, hlen1, hoth1, -⟩ :=
    append_put_heap_ok (w := w.setObj b { s with u := .space (k - 1) }) c hobj1 hp hv
      (by dsimp only; unfold short_max at hbig; omega) (by dsimp only; omega)
      (by dsimp only; omega)
  obtain ⟨hpre1, -⟩ := holds_cells_front hpre
  have hn1 : s.sz.toNat = S.length := by omega
  have hn2 : (s.sz + 1).toNat = S.length + 1 := by omega
  have hcap : String.capacity w b = some (s.sz + k) := by
    have : inInt (s.sz + k) = true := by
      rw [inInt_iff]
      unfold INT_MIN short_max at *
      omega
    simp only [String.capacity, hs, not_le.2 hbig, if_false, hu, Store.getSpace, this, if_true]
  refine ⟨w1, by simp only [String.append, hg, hput], ho1, hlen1, ?_, hcap, ?_, fun o ho => ?_⟩
  · rw [hcap]
    have : inInt (s.sz + 1 + (k - 1)) = true := by
      rw [inInt_iff]
      unfold INT_MIN short_max at *
      omega
    simp only [String.capacity, ho1, show ¬ (s.sz + 1 ≤ short_max) by omega, if_false,
      Store.getSpace, this, if_true]
    congr 1
    omega
  · refine ⟨{ ptr := s.ptr, sz := s.sz + 1, u := .space (k - 1) },
      (cells.set s.sz.toNat (some c)).set (s.sz + 1).toNat (some 0), ho1, by simp; omega, ?_, ?_,
      fun h => ?_, fun _ => ⟨id, k - 1, hp, rfl, by omega, ?_, ?_⟩⟩
    · simp only [World.view, hp, hl1]
    · rw [hn1, hn2]
      exact put_keeps_front S c cells hpre1 (by omega)
    · dsimp only at h
      omega
    · simp only [List.length_set]
      omega
    · simp only [List.length_set]
      exact hmax
  · rw [hoth1 o ho, World.obj_setObj, if_neg (fun e => ho e.symm)]


theorem takeWhile_ne_zero_of_not_mem {S : List Int} (h : (0 : Int) ∉ S) :
    S.takeWhile (fun c => decide (c ≠ 0)) = S := by
  rw [List.takeWhile_eq_self_iff]
  intro x hx
  simp only [ne_eq, decide_not, Bool.not_eq_true', decide_eq_false_iff_not]
  intro e
  exact h (e ▸ hx)

/-- The append on a well-formed value in the free store with `space == 0`,
when the allocation of `2 * sz + 2` code units is granted, returns; `ptr`
becomes the new allocation, the old one is released, `space` becomes the
length before the append and the capacity twice that length plus one.  The
value is the well-formed value with the code unit added when no code unit
held before is zero. -/
theorem append_heap_full_ok {w : World} {b : Nat} {s : String} {S : List Int} (c : Int)
    (hb : w.Holds b S) (hs : w.obj b = some s) (hbig : short_max < s.sz)
    (hu : s.u = .space 0) (hmem : s.sz + s.sz + 2 ≤ (w.heap.avail : Int))
    (hint : s.sz + s.sz + 2 ≤ INT_MAX) :
    ∃ w1 cells1, String.append w b c = .ok () w1 ∧
      w1.obj b = some { ptr := .heap w.heap.bufs.length, sz := s.sz + 1, u := .space s.sz } ∧
      w.heap.lookup w.heap.bufs.length = none ∧
      w1.heap.lookup w.heap.bufs.length = some cells1 ∧
      (cells1.length : Int) = s.sz + s.sz + 2 ∧
      (∀ id, s.ptr = .heap id → w1.heap.lookup id = none) ∧
      String.capacity w b = some s.sz ∧
      String.capacity w1 b = some (s.sz + s.sz + 1) ∧
      ((0 : Int) ∉ S → w1.Holds b (S ++ [c])) ∧ ∀ o, o ≠ b → w1.obj o = w.obj o := by
  obtain ⟨s0, cells, hs0, hsz, hv, hpre, -, hh⟩ := hb
  rw [hs] at hs0
  cases hs0
  obtain ⟨old, k0, hp, hu0, -, hroom, hmax⟩ := hh hbig
  rw [hu] at hu0
  cases hu0
  rw [hp] at hv
  simp only [World.view] at hv
  have hold := Heap.lookup_lt hv
  have hbl := World.obj_lt hs
  have h16 : (15 : Int) < s.sz := hbig
  have hne : s.sz ≠ short_max := by omega
  obtain ⟨t, rfl⟩ := hpre
  have hc := cstr_of_prefix S t
  have hcl : (S.takeWhile (fun c => decide (c ≠ 0))).length ≤ S.length :=
    (List.takeWhile_prefix _).length_le
  have hinn : inInt (s.sz + s.sz + 2) = true := by
    rw [inInt_iff]
    unfold INT_MIN
    omega
  have hvp : w.view s.ptr = some ((S ++ [0]).map some ++ t) := by
    rw [hp]
    exact hv
  obtain ⟨w2, cells1, he, ho2, hl2, hlen2, hpre2, hl0, hblen2, hlook2⟩ :=
    @expand_ok w s.ptr (s.sz + s.sz + 2) _ _ (by omega) hmem hvp hc (by omega)
  have hlold : w2.heap.lookup old = some ((S ++ [0]).map some ++ t) := by
    rw [hlook2 old hold, hv]
  obtain ⟨h2, hdel⟩ : ∃ h2, w2.heap.delete_array old = some h2 := by
    simp only [Heap.delete_array, hlold]
    exact ⟨_, rfl⟩
  have hdl := Heap.lookup_delete_array hdel
  have hdnone : h2.lookup old = none := by
    unfold Heap.delete_array at hdel
    simp only [hlold] at hdel
    cases hdel
    simp only [Heap.lookup, List.getElem?_set_self (by omega : old < w2.heap.bufs.length)]
  have hdlen : h2.bufs.length = w2.heap.bufs.length := by
    unfold Heap.delete_array at hdel
    simp only [hlold] at hdel
    cases hdel
    simp
  obtain ⟨k1, hk1⟩ : ∃ k1 : Int, k1 = s.sz + s.sz + 2 - s.sz - 2 := ⟨_, rfl⟩
  have hk1s : k1 = s.sz := by omega
  have hg : String.append_grow w b = .ok ()
      (World.setObj { w2 with heap := h2 } b
        { ptr := .heap w.heap.bufs.length, sz := s.sz, u := .space k1 }) := by
    have he1 := he
    rw [hp] at he1
    simp only [String.append_grow, hs, hne, if_false, hbig, if_true, hu, Store.getSpace, hinn,
      hp, he1, hdel, hk1]
  have hobj3 : (World.setObj { w2 with heap := h2 } b
      { ptr := .heap w.heap.bufs.length, sz := s.sz, u := .space k1 }).obj b =
      some { ptr := .heap w.heap.bufs.length, sz := s.sz, u := .space k1 } := by
    rw [World.obj_setObj, if_pos rfl, if_pos]
    show b < w2.objs.length
    rw [ho2]
    exact hbl
  have hl3 : (World.setObj { w2 with heap := h2 } b
      { ptr := .heap w.heap.bufs.length, sz := s.sz, u := .space k1 }).heap.lookup
      w.heap.bufs.length = some cells1 := by
    show h2.lookup _ = _
    rw [hdl _ (by omega), hl2]
  obtain ⟨w4, hput, ho4, hl4, hlen4, hoth4, hlk4⟩ :=
    append_put_heap_ok c hobj3 rfl hl3 (by dsimp only; omega) (by dsimp only; omega)
      (by dsimp only; omega)
  have ho4b : w4.obj b =
      some { ptr := .heap w.heap.bufs.length, sz := s.sz + 1, u := .space s.sz } := by
    rw [ho4, hk1s]
  have hin1 : inInt s.sz = true := by
    rw [inInt_iff]
    unfold INT_MIN
    omega
  have hin2 : inInt (s.sz + 1 + s.sz) = true := by
    rw [inInt_iff]
    unfold INT_MIN
    omega
  refine ⟨w4, _, by simp only [String.append, hg, hput], ho4b, hl0, hl4, ?_, ?_, ?_, ?_, ?_, ?_⟩
  · simp only [List.length_set]
    exact hlen2
  · intro id hid
    rw [hp] at hid
    cases hid
    rw [hlk4 old (by omega)]
    exact hdnone
  · simp only [String.capacity, hs, not_le.2 hbig, if_false, hu, Store.getSpace, Int.add_zero,
      hin1, if_true]
  · simp only [String.capacity, ho4b, show ¬ (s.sz + 1 ≤ short_max) by omega, if_false,
      Store.getSpace, hin2, if_true]
    congr 1
    omega
  · intro hz
    rw [takeWhile_ne_zero_of_not_mem hz] at hpre2
    obtain ⟨hpre3, -⟩ := holds_cells_front hpre2
    have hn1 : s.sz.toNat = S.length := by omega
    have hn2 : (s.sz + 1).toNat = S.length + 1 := by omega
    refine ⟨{ ptr := .heap w.heap.bufs.length, sz := s.sz + 1, u := .space s.sz },
      (cells1.set s.sz.toNat (some c)).set (s.sz + 1).toNat (some 0), ho4b, by simp; omega,
      ?_, ?_, fun h => ?_, fun _ => ⟨w.heap.bufs.length, s.sz, rfl, rfl, by omega, ?_, ?_⟩⟩
    · simp only [World.view, hl4]
    · rw [hn1, hn2]
      exact put_keeps_front S c cells1 hpre3 (by omega)
    · dsimp only at h
      omega
    · simp only [List.length_set]
      omega
    · simp only [List.length_set]
      omega
  · intro o ho
    rw [hoth4 o ho, World.obj_setObj, if_neg (fun e => ho e.symm)]
    exact World.obj_of_objs_eq ho2 o

/-- The two calls of `expand` stay within the new array on a well-formed
value: the source holds fewer code units before its first zero than
`sz + 1`, and than `2 * sz + 2`. -/
theorem expand_source_in_bounds {w : World} {x : Nat} {S : List Int} (hx : w.Holds x S) :
    ∃ s chars, w.obj x = some s ∧ (w.view s.ptr).bind cstr = some chars ∧
      (chars.length : Int) < s.sz + 1 ∧ (chars.length : Int) < s.sz + s.sz + 2 := by
  obtain ⟨s, cells, hs, hsz, hv, hpre, -⟩ := hx
  obtain ⟨chars, hc, hcl⟩ := cstr_of_holds_cells hpre
  refine ⟨s, chars, hs, by simp only [hv, Option.bind, hc], ?_, ?_⟩ <;> omega

/-! ### Concatenations that stay in the array -/


/-- A well-formed value stays so when its object and the free store are kept. -/
theorem holds_of_obj_heap {w w2 : World} {b : Nat} {T : List Int}
    (hb : w.Holds b T) (ho : w2.obj b = w.obj b) (hh : w2.heap = w.heap) : w2.Holds b T := by
  obtain ⟨s, cells, hs, hsz, hv, hpre, hi, hbig⟩ := hb
  refine ⟨s, cells, ho.trans hs, hsz, ?_, hpre, hi, hbig⟩
  by_cases hsm : s.sz ≤ short_max
  · have hp := hi hsm
    rw [hp] at hv ⊢
    simp only [World.view, hs, ho] at hv ⊢
    exact hv
  · obtain ⟨id, k, hp, -⟩ := hbig (not_le.1 hsm)
    rw [hp] at hv ⊢
    simp only [World.view, hh] at hv ⊢
    exact hv

theorem peek_of_holds {w : World} {b : Nat} {bs : String} {T : List Int}
    (hb : w.Holds b T) (hbs : w.obj b = some bs) (i : Nat) (hi : i < T.length) :
    w.peek bs.ptr (i : Int) = some (T.get ⟨i, hi⟩) := by
  have h := index_of_holds_lt hb i hi
  simp only [String.index, hbs] at h
  split at h
  · next c hc =>
    simp only [Outcome.ok.injEq, and_true] at h
    rw [hc, h]
  · cases h

/-- The loop of the concatenation on well-formed values whose code units fit
in the array `ch` together. -/
theorem append_range_inline {r b : Nat} (hrb : r ≠ b) {T : List Int} {bs : String} :
    ∀ (rest : List Int) (i : Nat) (w : World) (S : List Int),
      w.obj b = some bs → w.Holds b T → w.Holds r S → T.drop i = rest →
      ((S.length : Int) + rest.length ≤ short_max) →
      ∃ w1, String.append_range r bs.ptr rest.length (i : Int) w = .ok () w1 ∧
        w1.Holds r (S ++ rest) ∧ w1.heap = w.heap ∧ ∀ o, o ≠ r → w1.obj o = w.obj o := by
  intro rest
  induction rest with
  | nil =>
    intro i w S _ _ hr _ _
    exact ⟨w, rfl, by simpa using hr, rfl, fun _ _ => rfl⟩
  | cons x rest ih =>
    intro i w S hbs hb hr hdrop hfit
    have hiT : i < T.length := by
      have := congrArg List.length hdrop
      simp at this
      omega
    have hx : T.get ⟨i, hiT⟩ = x := by
      have h0 : (T.drop i)[0]? = some x := by rw [hdrop]; simp
      rw [List.getElem?_drop] at h0
      simp only [Nat.add_zero] at h0
      rw [List.getElem?_eq_getElem hiT] at h0
      simpa using h0
    have hdrop1 : T.drop (i + 1) = rest := by
      have := congrArg (List.drop 1) hdrop
      simpa [List.drop_drop, Nat.add_comm] using this
    have hpk := peek_of_holds hb hbs i hiT
    rw [hx] at hpk
    obtain ⟨w2, ha, hr2, -, -, hheap, hoth⟩ :=
      append_inline_ok x hr (by simp at hfit; omega)
    have hbs2 : w2.obj b = some bs := by rw [hoth b (fun e => hrb e.symm), hbs]
    have hb2 : w2.Holds b T := holds_of_obj_heap hb (hoth b (fun e => hrb e.symm)) hheap
    obtain ⟨w3, hloop, hr3, hheap3, hoth3⟩ :=
      ih (i + 1) w2 (S ++ [x]) hbs2 hb2 hr2 hdrop1 (by simp at hfit ⊢; omega)
    refine ⟨w3, ?_, by simpa using hr3, hheap3.trans hheap, fun o ho =>
      (hoth3 o ho).trans (hoth o ho)⟩
    simp only [List.length_cons, String.append_range, hpk, ha, String.assign_copy, if_true]
    rw [show ((i : Int) + 1) = ((i + 1 : Nat) : Int) by push_cast; rfl]
    exact hloop

/-- The concatenation of two well-formed values whose code units fit in the
array `ch` together returns a well-formed value that lives in its own array
and holds the code units of the first followed by those of the second; the
operands and the free store are unchanged. -/
theorem concat_inline_ok (w : World) (raw : String) (a b : Nat) (S T : List Int)
    (ha : w.Holds a S) (hb : w.Holds b T)
    (hfit : (S.length : Int) + T.length ≤ short_max) :
    ∃ w1, String.concat w raw a b = .ok w.objs.length w1 ∧
      w1.Holds w.objs.length (S ++ T) ∧
      String.size w1 w.objs.length = some ((S.length : Int) + T.length) ∧
      String.c_str w1 w.objs.length = some (.inl w.objs.length) ∧
      w1.Holds a S ∧ w1.Holds b T ∧ w1.obj a = w.obj a ∧ w1.obj b = w.obj b ∧
      w1.heap = w.heap := by
  obtain ⟨as, acells, has, hasz, hav, hapre, hai, -⟩ := id ha
  obtain ⟨bs, bcells, hbs, hbsz, hbv, hbpre, hbi, -⟩ := id hb
  have hal := World.obj_lt has
  have hbl := World.obj_lt hbs
  have hsmall : as.sz ≤ short_max := by omega
  have hap := hai hsmall
  rw [hap] at hav
  simp only [World.view, has, Option.some.injEq] at hav
  have hra : w.objs.length ≠ a := by omega
  have hrb : w.objs.length ≠ b := by omega
  have hfa : (w.fresh raw).obj a = some as := by rw [World.fresh_obj (by omega), has]
  have hfr : (w.fresh raw).obj w.objs.length = some raw := by
    simp [World.fresh, World.obj]
  have hcopy : String.ctor_copy (w.fresh raw) w.objs.length a =
      .ok () ((w.fresh raw).setObj w.objs.length { as with ptr := .inl w.objs.length }) := by
    simp [String.ctor_copy, String.copy_from, hfr, hfa, hsmall, hra, World.setObj_setObj]
  obtain ⟨w1, hw1⟩ : ∃ w1, w1 =
      (w.fresh raw).setObj w.objs.length { as with ptr := .inl w.objs.length } := ⟨_, rfl⟩
  have hoth1 : ∀ o, o ≠ w.objs.length → w1.obj o = w.obj o := by
    intro o ho
    rw [hw1, World.obj_setObj, if_neg (fun e => ho e.symm), World.fresh_obj ho]
  have hobjr : w1.obj w.objs.length = some { as with ptr := .inl w.objs.length } := by
    rw [hw1, World.obj_setObj, if_pos rfl, if_pos (by simp [World.fresh])]
  have hheap1 : w1.heap = w.heap := by rw [hw1]; rfl
  have hr1 : w1.Holds w.objs.length S := by
    refine ⟨_, acells, hobjr, hasz, ?_, hapre, fun _ => rfl, fun h => ?_⟩
    · simp only [World.view, hobjr, hav]
    · dsimp only at h
      omega
  have hb1 : w1.Holds b T := holds_of_obj_heap hb (hoth1 b (by omega)) hheap1
  have hbs1 : w1.obj b = some bs := by rw [hoth1 b (by omega), hbs]
  have hbv1 : w1.view bs.ptr = some bcells := by
    have hp := hbi (by omega)
    rw [hp] at hbv ⊢
    simp only [World.view, hbs, hbs1] at hbv ⊢
    exact hbv
  obtain ⟨w2, hloop, hr2, hheap2, hoth2⟩ :=
    append_range_inline hrb T 0 w1 S hbs1 hb1 hr1 rfl hfit
  have hend : String.end_ w1 b = some T.length := by
    have hlen := (holds_cells_front hbpre).2
    simp only [String.end_, hbs1, hbv1]
    rw [if_pos (by omega)]
    congr 1
    omega
  refine ⟨w2, ?_, hr2, ?_, ?_, ?_, ?_, ?_, ?_, hheap2.trans hheap1⟩
  · simp only [String.concat, hal, hbl, and_self, if_true, hcopy, ← hw1, String.begin_,
      String.c_str, hbs1, hend]
    rw [show ((0 : Nat) : Int) = 0 from rfl] at hloop
    simp only [hloop]
  · rw [holds_size hr2]
    simp
  · obtain ⟨s, cells, hs, hsz, -, -, hi, -⟩ := hr2
    simp only [String.c_str, hs]
    rw [hi (by rw [hsz]; simp; omega)]
  · exact holds_of_obj_heap ha ((hoth2 a (by omega)).trans (hoth1 a (by omega)))
      (hheap2.trans hheap1)
  · exact holds_of_obj_heap hb ((hoth2 b (by omega)).trans (hoth1 b (by omega)))
      (hheap2.trans hheap1)
  · exact (hoth2 a (by omega)).trans (hoth1 a (by omega))
  · exact (hoth2 b (by omega)).trans (hoth1 b (by omega))

end StrImpl
